import Mathlib

/-!
Shallow embedding of the schema-auditor core: constraint-contract extraction,
functional-dependency inference, attribute closure, normal-form checkers,
invariant reconciliation and the audit orchestrator, together with theorems
checking the specification's claims against these definitions.

JavaScript strings are modelled as Lean `String` (a list of characters);
JavaScript's code-unit string comparison is modelled by comparing the lists of
character codes lexicographically (`strKey`).  JavaScript `Map`/`Set` insertion
order is modelled explicitly (`groupPairs`, `dedupKeepFirst`).  The impure
clock reading in the orchestrator is an explicit `now` argument of `auditCore`.
-/

/-- Severity levels for audit findings (`Severity` in reportTypes.ts). -/
inductive Severity
  | error
  | warning
  | info
deriving DecidableEq, Repr

/-- Normal form levels (`NormalForm` in reportTypes.ts). -/
inductive NormalForm
  | nf1
  | nf2
  | nf3
  | bcnf
  | schema
deriving DecidableEq, Repr

/-- Finding rule codes (`RuleCode` in reportTypes.ts); constructor names are
abbreviated, `ruleCodeStr` gives the exact source string of each code. -/
inductive RuleCode
  | nf1ListInString
  | nf1RepeatingGroup
  | nf1JsonRelation
  | nf2PartialDep
  | nf2JoinTableDup
  | nf3Violation
  | bcnfViolation
  | invariantUnknownModel
  | invariantUnknownField
  | invariantDeterminantNotEnforced
  | softdeleteMissingInUnique
  | softdeleteAtWithoutBy
  | softdeleteByWithoutAt
  | fkMissingIndex
deriving DecidableEq, Repr

/-- The exact string value of each rule code in the source. -/
def ruleCodeStr : RuleCode → String
  | .nf1ListInString => "NF1_LIST_IN_STRING_SUSPECTED"
  | .nf1RepeatingGroup => "NF1_REPEATING_GROUP_SUSPECTED"
  | .nf1JsonRelation => "NF1_JSON_RELATION_SUSPECTED"
  | .nf2PartialDep => "NF2_PARTIAL_DEPENDENCY_SUSPECTED"
  | .nf2JoinTableDup => "NF2_JOIN_TABLE_DUPLICATED_ATTR_SUSPECTED"
  | .nf3Violation => "NF3_VIOLATION"
  | .bcnfViolation => "BCNF_VIOLATION"
  | .invariantUnknownModel => "INVARIANT_UNKNOWN_MODEL"
  | .invariantUnknownField => "INVARIANT_UNKNOWN_FIELD"
  | .invariantDeterminantNotEnforced => "INVARIANT_DETERMINANT_NOT_ENFORCED"
  | .softdeleteMissingInUnique => "SOFTDELETE_MISSING_IN_UNIQUE"
  | .softdeleteAtWithoutBy => "SOFTDELETE_AT_WITHOUT_BY"
  | .softdeleteByWithoutAt => "SOFTDELETE_BY_WITHOUT_AT"
  | .fkMissingIndex => "FK_MISSING_INDEX"

/-- A single normalization finding (`Finding` in reportTypes.ts); `field` and
`fix` are nullable in the source, modelled as `Option`. -/
structure Finding where
  rule : RuleCode
  severity : Severity
  normalForm : NormalForm
  model : String
  field : Option String
  message : String
  fix : Option String
deriving DecidableEq, Repr

/-- Referential action on a foreign key (`ReferentialAction` in reportTypes.ts). -/
inductive ReferentialAction
  | cascade
  | restrict
  | noAction
  | setNull
  | setDefault
deriving DecidableEq, Repr

/-- A primary key constraint (`PrimaryKeyConstraint`). -/
structure PrimaryKeyConstraint where
  fields : List String
  isComposite : Bool
deriving DecidableEq, Repr

/-- A unique constraint (`UniqueConstraint`). -/
structure UniqueConstraint where
  name : Option String
  fields : List String
  isComposite : Bool
deriving DecidableEq, Repr

/-- A foreign key constraint (`ForeignKeyConstraint`). -/
structure ForeignKeyConstraint where
  fields : List String
  referencedModel : String
  referencedFields : List String
  onDelete : ReferentialAction
  onUpdate : ReferentialAction
deriving DecidableEq, Repr

/-- Field-level metadata in the contract (`FieldContract`). -/
structure FieldContract where
  name : String
  type : String
  isNullable : Bool
  hasDefault : Bool
  isList : Bool
deriving DecidableEq, Repr

/-- Model-level constraint contract (`ModelContract`). -/
structure ModelContract where
  name : String
  fields : List FieldContract
  primaryKey : Option PrimaryKeyConstraint
  uniqueConstraints : List UniqueConstraint
  foreignKeys : List ForeignKeyConstraint
deriving DecidableEq, Repr

/-- The full constraint contract for a schema (`ConstraintContract`). -/
structure ConstraintContract where
  models : List ModelContract
deriving DecidableEq, Repr

/-- FD provenance tag (`source` field of `FunctionalDependency`). -/
inductive FdSource
  | pk
  | unique
  | fk
  | invariant
deriving DecidableEq, Repr

/-- A functional dependency: determinant fields determine dependent fields
within `model` (`FunctionalDependency` in inferFds.ts). -/
structure FunctionalDependency where
  determinant : List String
  dependent : List String
  model : String
  source : FdSource
deriving DecidableEq, Repr

/-- Candidate-key provenance tag (`source` field of `CandidateKey`). -/
inductive CkSource
  | pk
  | unique
deriving DecidableEq, Repr

/-- A candidate key for a model (`CandidateKey` in computeKeys.ts). -/
structure CandidateKey where
  fields : List String
  model : String
  source : CkSource
deriving DecidableEq, Repr

/-- Field kind from the upstream parser (`kind` field of `AuditField`). -/
inductive FieldKind
  | scalar
  | object
  | enum
  | unsupported
deriving DecidableEq, Repr

/-- Internal representation of a parsed model field (`AuditField` in types.ts). -/
structure AuditField where
  name : String
  type : String
  kind : FieldKind
  isList : Bool
  isRequired : Bool
  isId : Bool
  isUnique : Bool
  hasDefaultValue : Bool
  relationName : Option String
  relationFromFields : Option (List String)
  relationToFields : Option (List String)
  relationOnDelete : Option String
  relationOnUpdate : Option String
  documentation : Option String
deriving DecidableEq, Repr

/-- Parsed composite primary key (`AuditPrimaryKey`). -/
structure AuditPrimaryKey where
  fields : List String
deriving DecidableEq, Repr

/-- Parsed unique index (`AuditUniqueIndex`). -/
structure AuditUniqueIndex where
  name : Option String
  fields : List String
deriving DecidableEq, Repr

/-- Internal representation of a parsed model (`AuditModel` in types.ts). -/
structure AuditModel where
  name : String
  fields : List AuditField
  primaryKey : Option AuditPrimaryKey
  uniqueIndexes : List AuditUniqueIndex
  documentation : Option String
deriving DecidableEq, Repr

/-- Result of parsing a schema (`ParseResult`). -/
structure ParseResult where
  models : List AuditModel
deriving DecidableEq, Repr

/-- A user-declared functional dependency entry (`InvariantFd` in schema.ts). -/
structure InvariantFd where
  determinant : List String
  dependent : List String
  note : Option String
  rule : Option String
deriving DecidableEq, Repr

/-- Model-level invariants (`modelInvariantsSchema`): an optional list of
declared functional dependencies. -/
structure ModelInvariants where
  functionalDependencies : Option (List InvariantFd)
deriving DecidableEq, Repr

/-- The invariants file: a JSON object mapping model name to model invariants,
modelled as an insertion-ordered association list. -/
abbrev InvariantsFile := List (String × ModelInvariants)

/-- Result of parsing an invariants file (`ParsedInvariants` in parse.ts). -/
structure ParsedInvariants where
  invariants : InvariantsFile
  suppress : List String
deriving DecidableEq, Repr

/-- Metadata about the audit run (`AuditMetadata`). -/
structure AuditMetadata where
  schemaPath : String
  timestamp : Option String
  modelCount : Nat
  findingCount : Nat
deriving DecidableEq, Repr

/-- The complete audit result (`AuditResult`). -/
structure AuditResult where
  contract : ConstraintContract
  findings : List Finding
  metadata : AuditMetadata
deriving DecidableEq, Repr

/-- The sequence of character codes of a string; JavaScript compares strings
code-unit-wise, which on these identifiers is the lexicographic order of
`strKey`. -/
def strKey (s : String) : List Nat :=
  s.data.map Char.toNat

/-- Function `sortBy` from util/index.ts: stable sort by a string key (JavaScript
`Array.prototype.sort` with the three-way key comparator is a stable sort in
the key order). -/
def sortBy {α : Type} (key : α → String) (l : List α) : List α :=
  List.insertionSort (fun x y => strKey (key x) ≤ strKey (key y)) l

/-- JavaScript `Array.prototype.join` with a separator. -/
def jsJoin (sep : String) (parts : List String) : String :=
  String.intercalate sep parts

/-- A single-quote character as a string (used inside finding messages). -/
def quoteChar : String :=
  String.mk [Char.ofNat 39]

/-- Function `VALID_REFERENTIAL_ACTIONS` membership plus the cast in contract.ts:
`some` exactly on the five recognized action strings. -/
def referentialActionOfString (s : String) : Option ReferentialAction :=
  if s = "Cascade" then some .cascade
  else if s = "Restrict" then some .restrict
  else if s = "NoAction" then some .noAction
  else if s = "SetNull" then some .setNull
  else if s = "SetDefault" then some .setDefault
  else none

/-- Function `toReferentialAction` from contract.ts: a recognized declared value is kept,
anything else (including `null`) falls back. -/
def toReferentialAction (value : Option String) (fallback : ReferentialAction) :
    ReferentialAction :=
  match value with
  | some v =>
    match referentialActionOfString v with
    | some a => a
    | none => fallback
  | none => fallback

/-- Function `extractFieldContract` from contract.ts. -/
def extractFieldContract (f : AuditField) : FieldContract :=
  { name := f.name
    type := f.type
    isNullable := !f.isRequired
    hasDefault := f.hasDefaultValue
    isList := f.isList }

/-- Function `extractPrimaryKey` from contract.ts: a composite `@@id` wins over a
single-field `@id` marker. -/
def extractPrimaryKey (m : AuditModel) : Option PrimaryKeyConstraint :=
  match m.primaryKey with
  | some pk => some { fields := pk.fields, isComposite := decide (pk.fields.length > 1) }
  | none =>
    match m.fields.find? (fun f => f.isId) with
    | some idField => some { fields := [idField.name], isComposite := false }
    | none => none

/-- Function `extractUniqueConstraints` from contract.ts: single-field `@unique` markers
first, then composite `@@unique` indexes, sorted by the joined field list. -/
def extractUniqueConstraints (m : AuditModel) : List UniqueConstraint :=
  let singles := m.fields.filterMap (fun f =>
    if f.isUnique && f.kind != FieldKind.object then
      some { name := none, fields := [f.name], isComposite := false }
    else none)
  let composites := m.uniqueIndexes.map (fun idx =>
    { name := idx.name, fields := idx.fields,
      isComposite := decide (idx.fields.length > 1) })
  sortBy (fun c => jsJoin "," c.fields) (singles ++ composites)

/-- The per-field body of `extractForeignKeys`: a relation-kind field carrying
non-empty local and referenced field lists yields a foreign key. -/
def fkFromAuditField (f : AuditField) : Option ForeignKeyConstraint :=
  match f.relationFromFields, f.relationToFields with
  | some localFields, some refFields =>
    if f.kind == FieldKind.object && !localFields.isEmpty && !refFields.isEmpty then
      some { fields := localFields
             referencedModel := f.type
             referencedFields := refFields
             onDelete := toReferentialAction f.relationOnDelete .cascade
             onUpdate := toReferentialAction f.relationOnUpdate .cascade }
    else none
  | _, _ => none

/-- Function `extractForeignKeys` from contract.ts. -/
def extractForeignKeys (m : AuditModel) : List ForeignKeyConstraint :=
  sortBy (fun fk => jsJoin "," fk.fields) (m.fields.filterMap fkFromAuditField)

/-- Function `extractModelContract` from contract.ts. -/
def extractModelContract (m : AuditModel) : ModelContract :=
  let scalarFields := m.fields.filter (fun f => f.kind != FieldKind.object)
  { name := m.name
    fields := (sortBy (fun f => f.name) scalarFields).map extractFieldContract
    primaryKey := extractPrimaryKey m
    uniqueConstraints := extractUniqueConstraints m
    foreignKeys := extractForeignKeys m }

/-- Function `extractContract` from contract.ts: models sorted by name, each normalized. -/
def extractContract (parsed : ParseResult) : ConstraintContract :=
  { models := (sortBy (fun m => m.name) parsed.models).map extractModelContract }

/-- Function `extractCandidateKeys` from computeKeys.ts: the PK (if any) tagged `pk`,
then each unique constraint tagged `unique`; empty for unknown models. -/
def extractCandidateKeys (c : ConstraintContract) (modelName : String) :
    List CandidateKey :=
  match c.models.find? (fun m => m.name == modelName) with
  | none => []
  | some m =>
    (match m.primaryKey with
     | some pk => [{ fields := pk.fields, model := modelName, source := CkSource.pk }]
     | none => []) ++
    m.uniqueConstraints.map (fun uq =>
      { fields := uq.fields, model := modelName, source := CkSource.unique })

/-- The per-model body of `inferFunctionalDependencies`: PK FD (if dependents
non-empty), unique FDs (same rule, `addUniqueFds`), then FK FDs. -/
def modelInferredFds (m : ModelContract) : List FunctionalDependency :=
  let allFieldNames := m.fields.map (fun f => f.name)
  (match m.primaryKey with
   | some pk =>
     let dependent := allFieldNames.filter (fun f => !pk.fields.contains f)
     if dependent.length > 0 then
       [{ determinant := pk.fields, dependent := dependent, model := m.name,
          source := FdSource.pk }]
     else []
   | none => []) ++
  m.uniqueConstraints.filterMap (fun uq =>
    let dependent := allFieldNames.filter (fun f => !uq.fields.contains f)
    if dependent.length > 0 then
      some { determinant := uq.fields, dependent := dependent, model := m.name,
             source := FdSource.unique }
    else none) ++
  m.foreignKeys.map (fun fk =>
    { determinant := fk.fields, dependent := fk.referencedFields, model := m.name,
      source := FdSource.fk })

/-- Function `inferFunctionalDependencies` from inferFds.ts. -/
def inferFunctionalDependencies (c : ConstraintContract) :
    List FunctionalDependency :=
  c.models.flatMap modelInferredFds

/-- One pass of the closure loop in `attributeClosure`: scan the FDs in order,
adding the dependent fields of every FD whose determinant is already contained
(additions are visible to later FDs of the same pass, as in the source). -/
def closureStep (fds : List FunctionalDependency) (s : Finset String) :
    Finset String :=
  fds.foldl (fun acc fd =>
    if fd.determinant.all (fun a => decide (a ∈ acc)) then acc ∪ fd.dependent.toFinset
    else acc) s

/-- All fields occurring in some dependent list: the only fields the closure
loop can ever add, bounding the number of productive iterations. -/
def depUnion (fds : List FunctionalDependency) : Finset String :=
  (fds.flatMap (fun fd => fd.dependent)).toFinset

/-- Iterate `closureStep` until it no longer changes the set, with explicit
fuel (the source's `while (changed)` loop; `attributeClosure` supplies fuel
provably sufficient to reach the fixed point). -/
def closureIter (fds : List FunctionalDependency) :
    Nat → Finset String → Finset String
  | 0, s => s
  | n + 1, s =>
    let t := closureStep fds s
    if t = s then s else closureIter fds n t

/-- Function `attributeClosure` from inferFds.ts: fixed-point saturation of the
model-scoped FDs starting from the given attributes. -/
def attributeClosure (attributes : List String)
    (fds : List FunctionalDependency) (modelName : String) : Finset String :=
  let modelFds := fds.filter (fun fd => fd.model == modelName)
  closureIter modelFds ((depUnion modelFds).card + 1) attributes.toFinset

/-- Function `isSuperkey` from inferFds.ts: the closure covers all fields. -/
def isSuperkey (attributes : List String) (allFields : List String)
    (fds : List FunctionalDependency) (modelName : String) : Bool :=
  allFields.all (fun f => decide (f ∈ attributeClosure attributes fds modelName))

/-- Function `invariantsToFds` from invariants/parse.ts: every declared FD becomes a
`FunctionalDependency` tagged `invariant`. -/
def invariantsToFds (invariants : InvariantsFile) : List FunctionalDependency :=
  invariants.flatMap (fun p =>
    match p.2.functionalDependencies with
    | some fdl => fdl.map (fun fd =>
        { determinant := fd.determinant, dependent := fd.dependent,
          model := p.1, source := FdSource.invariant })
    | none => [])

/-- Lookup in `new Map(contract.models.map(m => [m.name, m]))`: with duplicate
names the later entry overwrites, so this returns the last match. -/
def mapGetLast (models : List ModelContract) (name : String) : Option ModelContract :=
  (models.filter (fun m => m.name == name)).getLast?

/-- Fuelled first-occurrence de-duplication; the fuel dominates the list
length at every call, which keeps the recursion structural. -/
def dedupGo : Nat → List String → List String
  | _, [] => []
  | 0, _ :: _ => []
  | n + 1, a :: t => a :: dedupGo n (t.filter (fun x => x != a))

/-- First-occurrence de-duplication, the iteration order of a JavaScript `Set`
built from a list. -/
def dedupKeepFirst (l : List String) : List String :=
  dedupGo l.length l

/-- The `INVARIANT_UNKNOWN_MODEL` finding of `validateInvariantsAgainstContract`. -/
def unknownModelFinding (modelName : String) : Finding :=
  { rule := .invariantUnknownModel, severity := .warning, normalForm := .nf3,
    model := modelName, field := none,
    message := "Invariants reference model \"" ++ modelName ++
      "\" which does not exist in the schema.",
    fix := some ("Update the invariants file to remove or rename model " ++
      quoteChar ++ modelName ++ quoteChar ++ ".") }

/-- The `INVARIANT_UNKNOWN_FIELD` finding of `validateInvariantsAgainstContract`. -/
def unknownFieldFinding (modelName field : String) : Finding :=
  { rule := .invariantUnknownField, severity := .warning, normalForm := .nf3,
    model := modelName, field := some field,
    message := "Invariants reference field \"" ++ field ++
      "\" which does not exist in model \"" ++ modelName ++ "\".",
    fix := some ("Update the invariants file to remove or rename field " ++
      quoteChar ++ field ++ quoteChar ++ " in model " ++ quoteChar ++ modelName ++
      quoteChar ++ ".") }

/-- The `INVARIANT_DETERMINANT_NOT_ENFORCED` finding of
`validateInvariantsAgainstContract`. -/
def notEnforcedFinding (modelName : String) (fd : InvariantFd) : Finding :=
  { rule := .invariantDeterminantNotEnforced, severity := .warning,
    normalForm := .schema, model := modelName, field := none,
    message := "Invariant FD \x7b" ++ jsJoin ", " fd.determinant ++ "\x7d â†’ \x7b" ++
      jsJoin ", " fd.dependent ++ "\x7d on \"" ++ modelName ++
      "\": determinant is not enforced by any PK or unique constraint.",
    fix := some ("Add @@unique([" ++ jsJoin ", " fd.determinant ++
      "]) to enforce this functional dependency.") }

/-- Function `validateInvariantsAgainstContract` from invariants/parse.ts. -/
def validateInvariantsAgainstContract (invariants : InvariantsFile)
    (c : ConstraintContract) : List Finding :=
  invariants.flatMap (fun p =>
    let modelName := p.1
    match mapGetLast c.models modelName with
    | none => [unknownModelFinding modelName]
    | some model =>
      let fieldNames := model.fields.map (fun f => f.name)
      match p.2.functionalDependencies with
      | none => []
      | some fdl =>
        let constraintFieldSets :=
          (match model.primaryKey with
           | some pk => [pk.fields]
           | none => []) ++
          model.uniqueConstraints.map (fun uq => uq.fields)
        fdl.flatMap (fun fd =>
          let allReferencedFields := dedupKeepFirst (fd.determinant ++ fd.dependent)
          let unknown := allReferencedFields.filter (fun f => !fieldNames.contains f)
          let hasUnknownDeterminantField := unknown.any (fun f => fd.determinant.contains f)
          unknown.map (unknownFieldFinding modelName) ++
          (if hasUnknownDeterminantField then []
           else
             let isEnforced := constraintFieldSets.any (fun cfs =>
               cfs.all (fun cf => fd.determinant.contains cf))
             if isEnforced then [] else [notEnforcedFinding modelName fd])))

/-- Grouping of key-value pairs in JavaScript `Map` semantics: keys in
first-occurrence order, values of each key in insertion order. -/
def groupPairs {α : Type} (l : List (String × α)) : List (String × List α) :=
  (dedupKeepFirst (l.map Prod.fst)).map (fun k =>
    (k, (l.filter (fun p => p.1 == k)).map Prod.snd))

/-- Function `generateNote` from invariants/generate.ts. -/
def generateNote (fd : FunctionalDependency) : String :=
  if fd.source == FdSource.pk then
    if fd.determinant.length > 1 then
      "Composite primary key (" ++ jsJoin ", " fd.determinant ++ ")"
    else "Primary key determines all fields"
  else
    if fd.determinant.length > 1 then
      "Composite unique constraint on (" ++ jsJoin ", " fd.determinant ++ ")"
    else "Unique constraint on (" ++ jsJoin ", " fd.determinant ++ ")"

/-- Function `generateRule` from invariants/generate.ts. -/
def generateRule (fd : FunctionalDependency) (modelName : String) : String :=
  let det :=
    if fd.determinant.length == 1 then fd.determinant.headD ""
    else jsJoin " + " fd.determinant
  "Each " ++ modelName ++ " is uniquely identified by " ++ det

/-- JavaScript `Array.prototype.sort()` on an array of strings: code-unit
lexicographic order. -/
def sortStrings (l : List String) : List String :=
  List.insertionSort (fun a b => strKey a ≤ strKey b) l

/-- Function `generateInvariantsFile` from invariants/generate.ts: keep PK/unique FDs,
group by model, sort model names and each entry's field lists. -/
def generateInvariantsFile (_contract : ConstraintContract)
    (fds : List FunctionalDependency) : InvariantsFile :=
  let eligibleFds := fds.filter (fun fd =>
    fd.source == FdSource.pk || fd.source == FdSource.unique)
  let byModel := groupPairs (eligibleFds.map (fun fd => (fd.model, fd)))
  let modelNames := sortStrings (byModel.map Prod.fst)
  modelNames.filterMap (fun modelName =>
    match (byModel.find? (fun p => p.1 == modelName)).map Prod.snd with
    | none => none
    | some modelFds =>
      let entries := modelFds.map (fun fd =>
        ({ determinant := sortStrings fd.determinant
           dependent := sortStrings fd.dependent
           note := some (generateNote fd)
           rule := some (generateRule fd modelName) } : InvariantFd))
      if entries.length > 0 then
        some (modelName, ({ functionalDependencies := some entries } : ModelInvariants))
      else none)

/-- The suffix set of `LIST_IN_STRING_PATTERN` in check1nf.ts. -/
def listInStringSuffixes : List String :=
  ["ids", "list", "csv", "array", "tags", "items", "values"]

/-- ASCII lowercase of a string (JavaScript case-insensitive matching on these
ASCII patterns). -/
def lowerStr (s : String) : String :=
  String.mk (s.data.map Char.toLower)

/-- Test of `LIST_IN_STRING_PATTERN` (case-insensitive suffix match). -/
def listInStringTest (name : String) : Bool :=
  listInStringSuffixes.any (fun suf => suf.data.isSuffixOf (lowerStr name).data)

/-- Match of `REPEATING_GROUP_PATTERN` (`(.+?)(\d+)$` anchored): the base is the
name minus its maximal trailing digit run, except that an all-digit name of
length at least two keeps its first character as base. -/
def rgBase (name : String) : Option String :=
  let cs := name.data
  let td := (cs.reverse.takeWhile Char.isDigit).length
  if td == 0 then none
  else if td < cs.length then some (String.mk (cs.take (cs.length - td)))
  else if cs.length ≥ 2 then some (String.mk (cs.take 1))
  else none

/-- Function `checkListInString` from check1nf.ts. -/
def checkListInString (m : ModelContract) : List Finding :=
  m.fields.flatMap (fun f =>
    if f.type == "String" && listInStringTest f.name then
      [{ rule := .nf1ListInString, severity := .warning, normalForm := .nf1,
         model := m.name, field := some f.name,
         message := "String field \"" ++ f.name ++
           "\" may contain a delimited list of values. Consider normalizing into a separate table.",
         fix := none }]
    else [])

/-- Function `checkRepeatingGroups` from check1nf.ts. -/
def checkRepeatingGroups (m : ModelContract) : List Finding :=
  let groups := groupPairs (m.fields.filterMap (fun f =>
    (rgBase f.name).map (fun b => (b, f))))
  groups.flatMap (fun p =>
    let baseName := p.1
    let flds := p.2
    if flds.length ≥ 2 then
      match flds.head? with
      | some f0 =>
        if flds.all (fun f => f.type == f0.type) then
          [{ rule := .nf1RepeatingGroup, severity := .warning, normalForm := .nf1,
             model := m.name, field := none,
             message := "Fields [" ++ jsJoin ", " (flds.map (fun f => f.name)) ++
               "] appear to be a repeating group for \"" ++ baseName ++
               "\". Consider normalizing into a separate table.",
             fix := none }]
        else []
      | none => []
    else [])

/-- Function `checkJsonRelation` from check1nf.ts. -/
def checkJsonRelation (m : ModelContract) : List Finding :=
  m.fields.flatMap (fun f =>
    if f.type == "Json" then
      [{ rule := .nf1JsonRelation, severity := .info, normalForm := .nf1,
         model := m.name, field := some f.name,
         message := "Json field \"" ++ f.name ++
           "\" may contain structured data that could be normalized into related tables.",
         fix := none }]
    else [])

/-- Function `check1nf` from check1nf.ts. -/
def check1nf (c : ConstraintContract) : List Finding :=
  c.models.flatMap (fun m =>
    checkListInString m ++ checkRepeatingGroups m ++ checkJsonRelation m)

/-- Function `checkPartialDependency` from check2nf.ts. -/
def checkPartialDependency (m : ModelContract) (pkFields : List String)
    (fds : List FunctionalDependency) : List Finding :=
  let nonKeyFields := (m.fields.map (fun f => f.name)).filter (fun n =>
    !pkFields.contains n)
  let fkFds := fds.filter (fun fd => fd.model == m.name && fd.source == FdSource.fk)
  fkFds.flatMap (fun fkFd =>
    let isProperSubset :=
      decide (fkFd.determinant.length < pkFields.length) &&
      fkFd.determinant.all (fun f => pkFields.contains f)
    if isProperSubset then
      let suspectedFields := nonKeyFields.filter (fun f => !fkFd.determinant.contains f)
      suspectedFields.map (fun field =>
        { rule := .nf2PartialDep, severity := .warning, normalForm := .nf2,
          model := m.name, field := some field,
          message := "Field \"" ++ field ++ "\" in composite-key model \"" ++
            m.name ++ "\" may depend on only a subset of the primary key (" ++
            jsJoin ", " fkFd.determinant ++
            "). Consider extracting to a separate table.",
          fix := none })
    else [])

/-- Function `checkJoinTableDuplicatedAttr` from check2nf.ts. -/
def checkJoinTableDuplicatedAttr (m : ModelContract) (pkFields : List String) :
    List Finding :=
  let fkFieldSets := m.foreignKeys.flatMap (fun fk => fk.fields)
  let allPkFieldsAreFk := pkFields.all (fun f => fkFieldSets.contains f)
  if !allPkFieldsAreFk then []
  else
    let extraFields := (m.fields.map (fun f => f.name)).filter (fun n =>
      !pkFields.contains n && !fkFieldSets.contains n)
    if extraFields.length > 0 then
      [{ rule := .nf2JoinTableDup, severity := .warning, normalForm := .nf2,
         model := m.name, field := none,
         message := "Join table \"" ++ m.name ++ "\" has extra attributes [" ++
           jsJoin ", " extraFields ++
           "] beyond its composite key. Consider whether this should be a first-class entity.",
         fix := none }]
    else []

/-- Function `check2nf` from check2nf.ts: only models with a composite primary key. -/
def check2nf (c : ConstraintContract) (fds : List FunctionalDependency) :
    List Finding :=
  c.models.flatMap (fun m =>
    let keys := extractCandidateKeys c m.name
    match keys.find? (fun k =>
      k.source == CkSource.pk && decide (k.fields.length > 1)) with
    | some compositePk =>
      checkPartialDependency m compositePk.fields fds ++
      checkJoinTableDuplicatedAttr m compositePk.fields
    | none => [])

/-- The `BCNF_VIOLATION` finding of check3nf.ts. -/
def bcnfFinding (fd : FunctionalDependency) (dep : String) : Finding :=
  { rule := .bcnfViolation, severity := .info, normalForm := .bcnf,
    model := fd.model, field := some dep,
    message := "FD \x7b" ++ jsJoin ", " fd.determinant ++ "\x7d → \x7b" ++ dep ++
      "\x7d: determinant is not a superkey. BCNF violation (" ++ dep ++
      " is part of a candidate key, so 3NF is satisfied).",
    fix := none }

/-- The `NF3_VIOLATION` finding of check3nf.ts. -/
def nf3Finding (fd : FunctionalDependency) (dep : String) : Finding :=
  { rule := .nf3Violation, severity := .error, normalForm := .nf3,
    model := fd.model, field := some dep,
    message := "FD \x7b" ++ jsJoin ", " fd.determinant ++ "\x7d → \x7b" ++ dep ++
      "\x7d: transitive dependency detected. \"" ++ dep ++
      "\" depends on non-key attributes \x7b" ++ jsJoin ", " fd.determinant ++
      "\x7d rather than a candidate key.",
    fix := none }

/-- Function `check3nf` from check3nf.ts: only invariant-sourced FDs are checked; the
superkey test uses the non-FK (intra-model) FDs. -/
def check3nf (c : ConstraintContract) (fds : List FunctionalDependency) :
    List Finding :=
  let checkableFds := fds.filter (fun fd => fd.source == FdSource.invariant)
  let intraModelFds := fds.filter (fun fd => fd.source != FdSource.fk)
  checkableFds.flatMap (fun fd =>
    match c.models.find? (fun m => m.name == fd.model) with
    | none => []
    | some model =>
      let allFields := model.fields.map (fun f => f.name)
      if isSuperkey fd.determinant allFields intraModelFds fd.model then []
      else
        let candidateKeys := extractCandidateKeys c fd.model
        let candidateKeyFields := candidateKeys.flatMap (fun k => k.fields)
        fd.dependent.flatMap (fun dep =>
          if fd.determinant.contains dep then []
          else if !allFields.contains dep then []
          else if candidateKeyFields.contains dep then [bcnfFinding fd dep]
          else [nf3Finding fd dep]))

/-- The loop over `model.uniqueConstraints` in checkSoftDelete.ts: one
`SOFTDELETE_MISSING_IN_UNIQUE` finding per unique constraint that omits the
soft-delete field. -/
def softDeleteUniqueFindings (modelName : String) (uqs : List UniqueConstraint)
    (sdfName : String) : List Finding :=
  uqs.flatMap (fun uq =>
    if !uq.fields.contains sdfName then
      [{ rule := .softdeleteMissingInUnique, severity := .warning,
         normalForm := .schema, model := modelName, field := some sdfName,
         message := "Unique constraint (" ++ jsJoin ", " uq.fields ++
           ") on \"" ++ modelName ++ "\" does not include soft-delete field \"" ++
           sdfName ++ "\". Deleted rows may conflict with active records.",
         fix := some ("Add " ++ quoteChar ++ sdfName ++ quoteChar ++
           " to this unique constraint: @@unique([" ++ jsJoin ", " uq.fields ++
           ", " ++ sdfName ++ "])") }]
    else [])

/-- The per-model body of `checkSoftDelete` from checkSoftDelete.ts. -/
def checkSoftDeleteModel (m : ModelContract) : List Finding :=
  let softDeleteField := m.fields.find? (fun f =>
    (f.name == "deleted_at" || f.name == "deletedAt") && f.type == "DateTime")
  let uniqueFindings :=
    match softDeleteField with
    | some sdf => softDeleteUniqueFindings m.name m.uniqueConstraints sdf.name
    | none => []
  let deletedByField := m.fields.find? (fun f =>
    f.name == "deleted_by" || f.name == "deletedBy")
  let pairingFindings :=
    match softDeleteField, deletedByField with
    | some sdf, none =>
      [{ rule := .softdeleteAtWithoutBy, severity := .info, normalForm := .schema,
         model := m.name, field := some sdf.name,
         message := "Model \"" ++ m.name ++ "\" has \"" ++ sdf.name ++
           "\" but no \"deleted_by\"/\"deletedBy\" field to track who performed the soft-delete.",
         fix := some ("Add a " ++ quoteChar ++ "deleted_by" ++ quoteChar ++
           " field to \"" ++ m.name ++ "\" to record the actor.") }]
    | none, some dbf =>
      [{ rule := .softdeleteByWithoutAt, severity := .info, normalForm := .schema,
         model := m.name, field := some dbf.name,
         message := "Model \"" ++ m.name ++ "\" has \"" ++ dbf.name ++
           "\" but no \"deleted_at\"/\"deletedAt\" DateTime field. The soft-delete pattern is incomplete.",
         fix := some ("Add a " ++ quoteChar ++ "deleted_at DateTime?" ++ quoteChar ++
           " field to \"" ++ m.name ++ "\" to complete the soft-delete pattern.") }]
    | _, _ => []
  uniqueFindings ++ pairingFindings

/-- Function `checkSoftDelete` from checkSoftDelete.ts. -/
def checkSoftDelete (c : ConstraintContract) : List Finding :=
  c.models.flatMap checkSoftDeleteModel

/-- Predicate `isLeftmostPrefix` from checkFkIndexes.ts: the FK field list matches the
leading fields of the constraint position by position. -/
def leftmostPrefixTest (fkFields constraintFields : List String) : Bool :=
  if decide (fkFields.length > constraintFields.length) then false
  else (List.zip fkFields constraintFields).all (fun p => p.2 == p.1)

/-- Function `isFkCoveredByConstraint` from checkFkIndexes.ts. -/
def isFkCoveredByConstraint (fkFields : List String)
    (pkFields : Option (List String)) (uniqueConstraints : List UniqueConstraint) :
    Bool :=
  ((match pkFields with
    | some p => [p]
    | none => []) ++
   uniqueConstraints.map (fun uq => uq.fields)).any
    (fun constraintFields => leftmostPrefixTest fkFields constraintFields)

/-- Function `checkFkIndexes` from checkFkIndexes.ts. -/
def checkFkIndexes (c : ConstraintContract) : List Finding :=
  c.models.flatMap (fun m =>
    m.foreignKeys.flatMap (fun fk =>
      let fkFields := fk.fields
      if isFkCoveredByConstraint fkFields (m.primaryKey.map (fun pk => pk.fields))
          m.uniqueConstraints then []
      else
        [{ rule := .fkMissingIndex, severity := .info, normalForm := .schema,
           model := m.name,
           field := if fkFields.length == 1 then fkFields.head? else none,
           message := "Foreign key (" ++ jsJoin ", " fkFields ++ ") on \"" ++
             m.name ++ "\" referencing \"" ++ fk.referencedModel ++
             "\" is not covered by any PK or unique constraint prefix. Queries joining on this FK may be slow.",
           fix := some ("Add @@index([" ++ jsJoin ", " fkFields ++ "]) to " ++
             quoteChar ++ m.name ++ quoteChar ++
             " for faster joins and cascade operations.") }]))

/-- JavaScript `String.prototype.indexOf` for a single character: the index of
the first occurrence, or `-1`. -/
def jsIndexOfChar (cs : List Char) (c : Char) : Int :=
  match cs.findIdx? (fun x => x == c) with
  | some n => (n : Int)
  | none => -1

/-- JavaScript `String.prototype.slice` on character lists: negative indices
count from the end, then the range is clamped. -/
def jsSlice (cs : List Char) (start stop : Int) : List Char :=
  let len : Int := cs.length
  let norm : Int → Int := fun i => if i < 0 then max (len + i) 0 else min i len
  (cs.take (norm stop).toNat).drop (norm start).toNat

/-- The per-entry body of `isSuppressed` from index.ts: split at the first
colon into rule and target, then match `RULE:Model` or `RULE:Model.field`. -/
def matchesSuppressEntry (f : Finding) (entry : String) : Bool :=
  let cs := entry.data
  let colonIdx := jsIndexOfChar cs ':'
  let rule := jsSlice cs 0 colonIdx
  let target := jsSlice cs (colonIdx + 1) cs.length
  if rule != (ruleCodeStr f.rule).data then false
  else
    let dotIdx := jsIndexOfChar target '.'
    if dotIdx == -1 then target == f.model.data
    else
      let model := jsSlice target 0 dotIdx
      let field := jsSlice target (dotIdx + 1) target.length
      model == f.model.data &&
        (match f.field with
         | some fl => field == fl.data
         | none => false)

/-- Function `isSuppressed` from index.ts. -/
def isSuppressed (f : Finding) (suppress : List String) : Bool :=
  suppress.any (matchesSuppressEntry f)

/-- The pre-suppression finding list built by `audit` in index.ts: the five
checkers followed by the invariant cross-validation findings. -/
def preSuppressionFindings (parsed : ParseResult)
    (parsedInvariants : Option ParsedInvariants) : List Finding :=
  let contract := extractContract parsed
  let schemaFds := inferFunctionalDependencies contract
  let allFds :=
    match parsedInvariants with
    | none => schemaFds
    | some pi => schemaFds ++ invariantsToFds pi.invariants
  let invariantFindings :=
    match parsedInvariants with
    | none => []
    | some pi => validateInvariantsAgainstContract pi.invariants contract
  check1nf contract ++ check2nf contract allFds ++ check3nf contract allFds ++
    checkSoftDelete contract ++ checkFkIndexes contract ++ invariantFindings

/-- The pure core of `audit` from index.ts: schema parsing and file reading
happen upstream; the impure clock reading is the explicit `now` argument,
consulted only when `noTimestamp` is false. -/
def auditCore (parsed : ParseResult) (parsedInvariants : Option ParsedInvariants)
    (schemaPath : String) (noTimestamp : Bool) (now : String) : AuditResult :=
  let contract := extractContract parsed
  let suppress :=
    match parsedInvariants with
    | none => []
    | some pi => pi.suppress
  let allFindings := preSuppressionFindings parsed parsedInvariants
  let findings :=
    if suppress.length > 0 then
      allFindings.filter (fun f => !isSuppressed f suppress)
    else allFindings
  { contract := contract
    findings := findings
    metadata := { schemaPath := schemaPath
                  timestamp := if noTimestamp then none else some now
                  modelCount := contract.models.length
                  findingCount := findings.length } }

/-- The 3NF/BCNF classification stated as the specification words it: for each
invariant-sourced FD whose determinant is not a superkey under the intra-model
(non-FK) FDs, one finding per dependent field that exists in the model and is
not part of the determinant — `BCNF_VIOLATION` when the field lies in the
union of the model's candidate-key field sets, `NF3_VIOLATION` otherwise. -/
def check3nfClaim (c : ConstraintContract) (fds : List FunctionalDependency) :
    List Finding :=
  (fds.filter (fun fd => fd.source == FdSource.invariant)).flatMap (fun fd =>
    match c.models.find? (fun m => m.name == fd.model) with
    | none => []
    | some model =>
      let allFields := model.fields.map (fun f => f.name)
      if isSuperkey fd.determinant allFields
          (fds.filter (fun fd2 => fd2.source != FdSource.fk)) fd.model then []
      else
        let candidateKeyFields :=
          (extractCandidateKeys c fd.model).flatMap (fun k => k.fields)
        (fd.dependent.filter (fun dep =>
          allFields.contains dep && !fd.determinant.contains dep)).map (fun dep =>
            if candidateKeyFields.contains dep then bcnfFinding fd dep
            else nf3Finding fd dep))

/-- Predicate: `T` is closed under a list of FDs: whenever a determinant lies inside `T`,
the dependents do too. -/
def ClosedUnder (fds : List FunctionalDependency) (T : Finset String) : Prop :=
  ∀ fd ∈ fds, (∀ a ∈ fd.determinant, a ∈ T) → ∀ b ∈ fd.dependent, b ∈ T

/-- The referential-action rule as the specification words it: keep a declared
value that is one of the five recognized actions, use Cascade for an absent or
unrecognized declaration. -/
def claimReferentialAction (declared : Option String) : ReferentialAction :=
  match declared with
  | none => ReferentialAction.cascade
  | some v =>
    if v = "Cascade" then ReferentialAction.cascade
    else if v = "Restrict" then ReferentialAction.restrict
    else if v = "NoAction" then ReferentialAction.noAction
    else if v = "SetNull" then ReferentialAction.setNull
    else if v = "SetDefault" then ReferentialAction.setDefault
    else ReferentialAction.cascade

/-- A concrete relation field with one recognized and one unrecognized
referential action. -/
def exRelField : AuditField :=
  { name := "author", type := "User", kind := FieldKind.object, isList := false,
    isRequired := true, isId := false, isUnique := false, hasDefaultValue := false,
    relationName := some "PostToUser", relationFromFields := some ["authorId"],
    relationToFields := some ["id"], relationOnDelete := some "SetNull",
    relationOnUpdate := some "Bogus", documentation := none }

/-- A concrete parsed model holding `exRelField`. -/
def exRelModel : AuditModel :=
  { name := "Post", fields := [exRelField], primaryKey := none,
    uniqueIndexes := [], documentation := none }

/-- The foreign key extracted from `exRelField`. -/
def exRelFk : ForeignKeyConstraint :=
  { fields := ["authorId"], referencedModel := "User", referencedFields := ["id"],
    onDelete := ReferentialAction.setNull, onUpdate := ReferentialAction.cascade }

/-- The User model of the invariants examples: fields id, email, name, primary
key id, unique email. -/
def exUserModel : ModelContract :=
  { name := "User"
    fields := [{ name := "email", type := "String", isNullable := false,
                 hasDefault := false, isList := false },
               { name := "id", type := "Int", isNullable := false,
                 hasDefault := true, isList := false },
               { name := "name", type := "String", isNullable := true,
                 hasDefault := false, isList := false }]
    primaryKey := some { fields := ["id"], isComposite := false }
    uniqueConstraints := [{ name := none, fields := ["email"], isComposite := false }]
    foreignKeys := [] }

/-- A contract holding only `exUserModel`. -/
def exUserContract : ConstraintContract := ⟨[exUserModel]⟩

/-- Two FD entries of the same model both referencing the unknown field
`ghost`. -/
def cex6Invariants : InvariantsFile :=
  [("User", { functionalDependencies := some (
      [{ determinant := ["ghost"], dependent := ["email"], note := none, rule := none },
       { determinant := ["ghost"], dependent := ["name"], note := none, rule := none }] : List InvariantFd) })]

/-- An FD entry whose unknown field `ghost` appears in both determinant and
dependent. -/
def exGhostFd : InvariantFd :=
  { determinant := ["ghost"], dependent := ["ghost", "email"],
    note := none, rule := none }

/-- What the round trip does to one FD: field lists sorted alphabetically and
the source retagged `invariant`. -/
def normalizeRoundTripFd (fd : FunctionalDependency) : FunctionalDependency :=
  { determinant := sortStrings fd.determinant
    dependent := sortStrings fd.dependent
    model := fd.model
    source := FdSource.invariant }

/-- A one-model contract whose round trip retags the FD source. -/
def cex3Contract : ConstraintContract :=
  ⟨[{ name := "M"
      fields := [{ name := "a", type := "Int", isNullable := false,
                   hasDefault := false, isList := false },
                 { name := "b", type := "Int", isNullable := false,
                   hasDefault := false, isList := false },
                 { name := "id", type := "Int", isNullable := false,
                   hasDefault := true, isList := false }]
      primaryKey := some { fields := ["id"], isComposite := false }
      uniqueConstraints := []
      foreignKeys := [] }]⟩

/-- The suppression-matching rule as the specification words it: the entry
splits at its first colon into a rule part equal to the finding's rule and a
target that is either the finding's model (no field part) or the finding's
model and field split at the target's first dot. -/
def entrySuppressSpec (f : Finding) (e : String) : Prop :=
  ∃ r t : List Char, e.data = r ++ ':' :: t ∧ ':' ∉ r ∧
    r = (ruleCodeStr f.rule).data ∧
    (('.' ∉ t ∧ t = f.model.data) ∨
     (∃ mo fl : List Char, t = mo ++ '.' :: fl ∧ '.' ∉ mo ∧ mo = f.model.data ∧
        ∃ fls : String, f.field = some fls ∧ fl = fls.data))

/-- A finding matches some suppress entry, specification-style. -/
def claimSuppressed (f : Finding) (suppress : List String) : Prop :=
  ∃ e ∈ suppress, entrySuppressSpec f e

/-- A concrete NF3 finding for the suppression witness. -/
def exNf3Finding : Finding :=
  { rule := RuleCode.nf3Violation, severity := Severity.error,
    normalForm := NormalForm.nf3, model := "Employee", field := some "deptName",
    message := "", fix := none }

/-- Congruence for `flatMap` under pointwise equality on members. -/
theorem listFlatMapCongr {α β : Type} {l : List α} {f g : α → List β}
    (h : ∀ a ∈ l, f a = g a) : l.flatMap f = l.flatMap g := by
  induction l with
  | nil => rfl
  | cons a t ih =>
    simp only [List.flatMap_cons]
    rw [h a (List.mem_cons_self a t), ih (fun b hb => h b (List.mem_cons_of_mem a hb))]

/-- A loop that skips on two guards and emits exactly one element (chosen by a
third test) otherwise equals a filter followed by a map. -/
theorem guardFlatMapEq {α β : Type} (l : List α) (p q r : α → Bool) (g₁ g₂ : α → β) :
    (l.flatMap fun a =>
        if p a then [] else if q a then [] else if r a then [g₁ a] else [g₂ a]) =
      (l.filter fun a => !q a && !p a).map (fun a => if r a then g₁ a else g₂ a) := by
  induction l with
  | nil => rfl
  | cons a t ih =>
    cases hp : p a <;> cases hq : q a <;> cases hr : r a <;>
      simp [List.flatMap_cons, List.filter_cons, hp, hq, hr, ih]

/-- C1: for every invariant-sourced FD whose determinant is not a superkey,
`check3nf` emits exactly one finding per dependent field that exists in the
model and is outside the determinant — `BCNF_VIOLATION` (severity info, normal
form BCNF) when the field is candidate-key material, `NF3_VIOLATION` (severity
error, normal form 3NF) otherwise — and an invariant FD whose determinant is a
superkey produces no finding. -/
theorem check3nf_classification :
    (∀ c fds, check3nf c fds = check3nfClaim c fds) ∧
    (∀ fd dep, (bcnfFinding fd dep).rule = RuleCode.bcnfViolation ∧
      (bcnfFinding fd dep).severity = Severity.info ∧
      (bcnfFinding fd dep).normalForm = NormalForm.bcnf) ∧
    (∀ fd dep, (nf3Finding fd dep).rule = RuleCode.nf3Violation ∧
      (nf3Finding fd dep).severity = Severity.error ∧
      (nf3Finding fd dep).normalForm = NormalForm.nf3) := by
  refine ⟨fun c fds => ?_, fun fd dep => ⟨rfl, rfl, rfl⟩, fun fd dep => ⟨rfl, rfl, rfl⟩⟩
  unfold check3nf check3nfClaim
  refine listFlatMapCongr (fun fd _ => ?_)
  cases c.models.find? (fun m => m.name == fd.model) with
  | none => rfl
  | some model =>
    simp only
    split
    · rfl
    · rw [guardFlatMapEq]
      congr 1
      refine List.filter_congr (fun dep _ => ?_)
      simp

/-- C4: FK-sourced FDs never contribute to the superkey decision of `check3nf`:
the closure there is computed over the non-FK filter, which consists exactly of
the pk-, unique- and invariant-sourced FDs, and `check3nf` gives equal results
for any two FD lists whose non-FK sublists agree. -/
theorem check3nf_fk_exclusion :
    (∀ (X : List String) (fds : List FunctionalDependency) (m : String),
      attributeClosure X
        (fds.filter (fun fd => fd.source != FdSource.fk)) m =
      attributeClosure X
        (fds.filter (fun fd => fd.source == FdSource.pk ||
          fd.source == FdSource.unique || fd.source == FdSource.invariant)) m) ∧
    (∀ c fds fds',
      fds.filter (fun fd => fd.source != FdSource.fk) =
        fds'.filter (fun fd => fd.source != FdSource.fk) →
      check3nf c fds = check3nf c fds') := by
  have hfilter : ∀ fds : List FunctionalDependency,
      (fds.filter (fun fd => fd.source != FdSource.fk)).filter
          (fun fd => fd.source == FdSource.invariant) =
        fds.filter (fun fd => fd.source == FdSource.invariant) := by
    intro fds
    rw [List.filter_filter]
    refine List.filter_congr (fun fd _ => ?_)
    cases fd.source <;> rfl
  have hfilter2 : ∀ fds : List FunctionalDependency,
      (fds.filter (fun fd => fd.source != FdSource.fk)).filter
          (fun fd => fd.source != FdSource.fk) =
        fds.filter (fun fd => fd.source != FdSource.fk) := by
    intro fds
    rw [List.filter_filter]
    refine List.filter_congr (fun fd _ => ?_)
    cases fd.source <;> rfl
  have hbase : ∀ c fds,
      check3nf c (fds.filter (fun fd => fd.source != FdSource.fk)) =
        check3nf c fds := by
    intro c fds
    unfold check3nf
    rw [hfilter, hfilter2]
  constructor
  · intro X fds m
    congr 1
    refine List.filter_congr (fun fd _ => ?_)
    cases fd.source <;> rfl
  · intro c fds fds' h
    rw [← hbase c fds, h, hbase c fds']

/-- C4 witness: dropping a concrete FK-sourced FD does not change `check3nf`. -/
theorem check3nf_fk_exclusion_witness :
    ([({ determinant := ["departmentId"], dependent := ["deptName"],
         model := "Employee", source := FdSource.invariant } : FunctionalDependency),
      ({ determinant := ["departmentId"], dependent := ["id"],
         model := "Employee", source := FdSource.fk } : FunctionalDependency)].filter
        (fun fd => fd.source != FdSource.fk) =
      [({ determinant := ["departmentId"], dependent := ["deptName"],
          model := "Employee", source := FdSource.invariant } : FunctionalDependency)].filter
        (fun fd => fd.source != FdSource.fk)) ∧
    check3nf (ConstraintContract.mk [])
        [({ determinant := ["departmentId"], dependent := ["deptName"],
            model := "Employee", source := FdSource.invariant } : FunctionalDependency),
         ({ determinant := ["departmentId"], dependent := ["id"],
            model := "Employee", source := FdSource.fk } : FunctionalDependency)] =
      check3nf (ConstraintContract.mk [])
        [({ determinant := ["departmentId"], dependent := ["deptName"],
            model := "Employee", source := FdSource.invariant } : FunctionalDependency)] :=
  ⟨by decide, check3nf_fk_exclusion.2 _ _ _ (by decide)⟩

/-- C2: with `noTimestamp` set, the audit result does not depend on the clock
reading, so two runs on equal parsed model lists agree and any rendering of the
two results is byte-identical. -/
theorem audit_noTimestamp_deterministic :
    (∀ parsed parsedInvariants schemaPath now₁ now₂,
      auditCore parsed parsedInvariants schemaPath true now₁ =
        auditCore parsed parsedInvariants schemaPath true now₂) ∧
    (∀ (render : AuditResult → String) parsed parsedInvariants schemaPath now₁ now₂,
      render (auditCore parsed parsedInvariants schemaPath true now₁) =
        render (auditCore parsed parsedInvariants schemaPath true now₂)) := by
  have h : ∀ parsed parsedInvariants schemaPath now₁ now₂,
      auditCore parsed parsedInvariants schemaPath true now₁ =
        auditCore parsed parsedInvariants schemaPath true now₂ := by
    intro parsed parsedInvariants schemaPath now₁ now₂
    rfl
  exact ⟨h, fun render parsed pi sp n₁ n₂ => congrArg render (h parsed pi sp n₁ n₂)⟩

/-- C10: the metadata of every audit result counts the findings after
suppression filtering and the models of the returned contract. -/
theorem audit_metadata_counts (parsed : ParseResult)
    (parsedInvariants : Option ParsedInvariants) (schemaPath : String)
    (noTimestamp : Bool) (now : String) :
    (auditCore parsed parsedInvariants schemaPath noTimestamp now).metadata.findingCount =
      (auditCore parsed parsedInvariants schemaPath noTimestamp now).findings.length ∧
    (auditCore parsed parsedInvariants schemaPath noTimestamp now).metadata.modelCount =
      (auditCore parsed parsedInvariants schemaPath noTimestamp now).contract.models.length :=
  ⟨rfl, rfl⟩

/-- One pass of the closure loop only grows the set. -/
theorem subset_closureStep : ∀ (fds : List FunctionalDependency) (s : Finset String),
    s ⊆ closureStep fds s
  | [], s => Finset.Subset.refl s
  | fd :: t, s => by
    show s ⊆ closureStep t
      (if fd.determinant.all (fun a => decide (a ∈ s)) then s ∪ fd.dependent.toFinset
       else s)
    refine Finset.Subset.trans ?_ (subset_closureStep t _)
    split
    · exact Finset.subset_union_left
    · exact Finset.Subset.refl s

/-- One pass of the closure loop only adds fields from some dependent list. -/
theorem closureStep_subset_union :
    ∀ (fds : List FunctionalDependency) (s : Finset String),
      closureStep fds s ⊆ s ∪ depUnion fds
  | [], s => by
    intro x hx
    exact Finset.mem_union_left _ hx
  | fd :: t, s => by
    show closureStep t
        (if fd.determinant.all (fun a => decide (a ∈ s)) then s ∪ fd.dependent.toFinset
         else s) ⊆ s ∪ depUnion (fd :: t)
    have hdep : depUnion (fd :: t) = fd.dependent.toFinset ∪ depUnion t := by
      simp [depUnion, List.flatMap_cons]
    refine Finset.Subset.trans (closureStep_subset_union t _) ?_
    rw [hdep]
    split
    · intro x hx
      simp only [Finset.mem_union] at hx ⊢
      tauto
    · intro x hx
      simp only [Finset.mem_union] at hx ⊢
      tauto

/-- One pass of the closure loop stays inside any closed superset. -/
theorem closureStep_subset_of_closed :
    ∀ (fds : List FunctionalDependency) (s T : Finset String),
      s ⊆ T → ClosedUnder fds T → closureStep fds s ⊆ T
  | [], s, T, hs, _ => hs
  | fd :: t, s, T, hs, hc => by
    show closureStep t
        (if fd.determinant.all (fun a => decide (a ∈ s)) then s ∪ fd.dependent.toFinset
         else s) ⊆ T
    refine closureStep_subset_of_closed t _ T ?_
      (fun fd' hf' => hc fd' (List.mem_cons_of_mem _ hf'))
    cases hcond : fd.determinant.all (fun a => decide (a ∈ s)) with
    | false => simpa [hcond] using hs
    | true =>
      simp only [hcond, if_true]
      refine Finset.union_subset hs ?_
      intro b hb
      refine hc fd (List.mem_cons_self fd t) (fun a ha => ?_) b (List.mem_toFinset.mp hb)
      have := List.all_eq_true.mp hcond a ha
      exact hs (of_decide_eq_true this)

/-- The iterated closure loop only grows the set. -/
theorem subset_closureIter :
    ∀ (fds : List FunctionalDependency) (n : Nat) (s : Finset String),
      s ⊆ closureIter fds n s
  | _, 0, s => Finset.Subset.refl s
  | fds, n + 1, s => by
    show s ⊆ (if closureStep fds s = s then s else closureIter fds n (closureStep fds s))
    split
    · exact Finset.Subset.refl s
    · exact Finset.Subset.trans (subset_closureStep fds s) (subset_closureIter fds n _)

/-- The iterated closure loop stays inside any closed superset. -/
theorem closureIter_subset_of_closed :
    ∀ (fds : List FunctionalDependency) (n : Nat) (s T : Finset String),
      s ⊆ T → ClosedUnder fds T → closureIter fds n s ⊆ T
  | _, 0, _, _, hs, _ => hs
  | fds, n + 1, s, T, hs, hc => by
    show (if closureStep fds s = s then s else closureIter fds n (closureStep fds s)) ⊆ T
    split
    · exact hs
    · exact closureIter_subset_of_closed fds n _ T
        (closureStep_subset_of_closed fds s T hs hc) hc

/-- A fixed point of the closure pass is closed under the FDs. -/
theorem closureStep_fix_closed :
    ∀ (fds : List FunctionalDependency) (s : Finset String),
      closureStep fds s = s → ClosedUnder fds s
  | [], _, _ => by
    intro fd hfd
    exact absurd hfd (List.not_mem_nil fd)
  | fd :: t, s, hfix => by
    have hfix' : closureStep t
        (if fd.determinant.all (fun a => decide (a ∈ s)) then s ∪ fd.dependent.toFinset
         else s) = s := hfix
    have hstep1 : (if fd.determinant.all (fun a => decide (a ∈ s)) then
        s ∪ fd.dependent.toFinset else s) = s := by
      refine Finset.Subset.antisymm ?_ ?_
      · refine Finset.Subset.trans (subset_closureStep t _) ?_
        rw [hfix']
      · split
        · exact Finset.subset_union_left
        · exact Finset.Subset.refl s
    have hrest : closureStep t s = s := by
      rw [hstep1] at hfix'
      exact hfix'
    intro fd' hfd' hdet b hb
    rcases List.mem_cons.mp hfd' with heq | hmem
    · subst heq
      have hcond : fd'.determinant.all (fun a => decide (a ∈ s)) = true := by
        rw [List.all_eq_true]
        exact fun a ha => decide_eq_true (hdet a ha)
      rw [hcond] at hstep1
      rw [if_pos rfl] at hstep1
      have hsub : fd'.dependent.toFinset ⊆ s := by
        rw [← hstep1]
        exact Finset.subset_union_right
      exact hsub (List.mem_toFinset.mpr hb)
    · exact closureStep_fix_closed t s hrest fd' hmem hdet b hb

/-- With fuel exceeding the number of addable fields outside the start set, the
iterated loop reaches a fixed point of the closure pass. -/
theorem closureIter_fix :
    ∀ (fds : List FunctionalDependency) (n : Nat) (s : Finset String),
      (depUnion fds \ s).card < n →
      closureStep fds (closureIter fds n s) = closureIter fds n s
  | _, 0, _, h => absurd h (Nat.not_lt_zero _)
  | fds, n + 1, s, h => by
    show closureStep fds
        (if closureStep fds s = s then s else closureIter fds n (closureStep fds s)) =
      (if closureStep fds s = s then s else closureIter fds n (closureStep fds s))
    by_cases he : closureStep fds s = s
    · simp only [he, if_true]
    · simp only [he, if_false]
      refine closureIter_fix fds n _ ?_
      have hsub : s ⊆ closureStep fds s := subset_closureStep fds s
      obtain ⟨x, hxt, hxs⟩ := Finset.exists_of_ssubset
        (Finset.ssubset_iff_subset_ne.mpr ⟨hsub, fun hc => he hc.symm⟩)
      have hx2 : x ∈ depUnion fds := by
        rcases Finset.mem_union.mp (closureStep_subset_union fds s hxt) with h' | h'
        · exact absurd h' hxs
        · exact h'
      have hstrict : depUnion fds \ closureStep fds s ⊂ depUnion fds \ s := by
        refine (Finset.ssubset_iff_of_subset
          (Finset.sdiff_subset_sdiff (Finset.Subset.refl _) hsub)).mpr ?_
        exact ⟨x, Finset.mem_sdiff.mpr ⟨hx2, hxs⟩,
          fun hx3 => (Finset.mem_sdiff.mp hx3).2 hxt⟩
      have := Finset.card_lt_card hstrict
      omega

/-- The function `attributeClosure` is a fixed point of the closure pass over the
model-scoped FDs. -/
theorem attributeClosure_fixed (X : List String) (fds : List FunctionalDependency)
    (m : String) :
    closureStep (fds.filter (fun fd => fd.model == m)) (attributeClosure X fds m) =
      attributeClosure X fds m := by
  unfold attributeClosure
  refine closureIter_fix _ _ _ ?_
  exact Nat.lt_succ_of_le (Finset.card_le_card (Finset.sdiff_subset))

/-- The starting attributes belong to their closure. -/
theorem mem_attributeClosure_of_mem (X : List String)
    (fds : List FunctionalDependency) (m : String) {a : String} (ha : a ∈ X) :
    a ∈ attributeClosure X fds m := by
  unfold attributeClosure
  exact subset_closureIter _ _ _ (List.mem_toFinset.mpr ha)

/-- The closure is contained in every closed set containing the start. -/
theorem attributeClosure_minimal (X : List String)
    (fds : List FunctionalDependency) (m : String) (T : Finset String)
    (hX : ∀ a ∈ X, a ∈ T)
    (hT : ClosedUnder (fds.filter (fun fd => fd.model == m)) T) :
    attributeClosure X fds m ⊆ T := by
  unfold attributeClosure
  refine closureIter_subset_of_closed _ _ _ T ?_ hT
  intro a ha
  exact hX a (List.mem_toFinset.mp ha)

/-- The closure is closed under the model-scoped FDs. -/
theorem attributeClosure_closedUnder (X : List String)
    (fds : List FunctionalDependency) (m : String) :
    ClosedUnder (fds.filter (fun fd => fd.model == m)) (attributeClosure X fds m) :=
  closureStep_fix_closed _ _ (attributeClosure_fixed X fds m)

/-- C5: closure monotonicity — for attribute sets `X ⊆ Y`, every FD list and
every model name, `attributeClosure X ⊆ attributeClosure Y`. -/
theorem attributeClosure_monotone (X Y : List String)
    (fds : List FunctionalDependency) (m : String) (h : ∀ a ∈ X, a ∈ Y) :
    attributeClosure X fds m ⊆ attributeClosure Y fds m :=
  attributeClosure_minimal X fds m _
    (fun a ha => mem_attributeClosure_of_mem Y fds m (h a ha))
    (attributeClosure_closedUnder Y fds m)

/-- C5 witness: monotonicity applied to concrete attribute sets and FDs. -/
theorem attributeClosure_monotone_witness :
    (∀ a ∈ ["A"], a ∈ ["A", "D"]) ∧
    attributeClosure ["A"]
        [({ determinant := ["A"], dependent := ["B"], model := "T",
            source := FdSource.invariant } : FunctionalDependency)] "T" ⊆
      attributeClosure ["A", "D"]
        [({ determinant := ["A"], dependent := ["B"], model := "T",
            source := FdSource.invariant } : FunctionalDependency)] "T" :=
  ⟨by decide, attributeClosure_monotone _ _ _ _ (by decide)⟩

/-- Every finding emitted by the unique-constraint loop of the soft-delete
checker carries the `SOFTDELETE_MISSING_IN_UNIQUE` rule. -/
theorem rule_of_mem_softDeleteUniqueFindings {f : Finding} {mn s : String}
    {uqs : List UniqueConstraint} (hf : f ∈ softDeleteUniqueFindings mn uqs s) :
    f.rule = RuleCode.softdeleteMissingInUnique := by
  unfold softDeleteUniqueFindings at hf
  rcases List.mem_flatMap.mp hf with ⟨uq, _, hmem⟩
  split at hmem
  · rcases List.mem_singleton.mp hmem with rfl
    rfl
  · exact absurd hmem (List.not_mem_nil f)

/-- The unique-constraint loop contributes no pairing findings. -/
theorem countP_pairing_softDeleteUniqueFindings (mn s : String)
    (uqs : List UniqueConstraint) (r : RuleCode)
    (hr : r ≠ RuleCode.softdeleteMissingInUnique) :
    (softDeleteUniqueFindings mn uqs s).countP (fun f => f.rule == r) = 0 := by
  refine List.countP_eq_zero.mpr (fun f hf => ?_)
  rw [rule_of_mem_softDeleteUniqueFindings hf]
  simpa using fun h => hr h.symm

/-- C8: for every model, `checkSoftDelete` emits exactly one
`SOFTDELETE_AT_WITHOUT_BY` (severity info) when a DateTime `deleted_at` /
`deletedAt` field is present without a `deleted_by` / `deletedBy` field,
exactly one `SOFTDELETE_BY_WITHOUT_AT` (severity info) in the reverse case,
and zero pairing findings when both or neither are present. -/
theorem checkSoftDelete_pairing (m : ModelContract) :
    ((checkSoftDelete ⟨[m]⟩).countP
        (fun f => f.rule == RuleCode.softdeleteAtWithoutBy) =
      if (m.fields.find? (fun f =>
            (f.name == "deleted_at" || f.name == "deletedAt") &&
              f.type == "DateTime")).isSome &&
         !(m.fields.find? (fun f =>
            f.name == "deleted_by" || f.name == "deletedBy")).isSome
      then 1 else 0) ∧
    ((checkSoftDelete ⟨[m]⟩).countP
        (fun f => f.rule == RuleCode.softdeleteByWithoutAt) =
      if (m.fields.find? (fun f =>
            f.name == "deleted_by" || f.name == "deletedBy")).isSome &&
         !(m.fields.find? (fun f =>
            (f.name == "deleted_at" || f.name == "deletedAt") &&
              f.type == "DateTime")).isSome
      then 1 else 0) ∧
    (∀ f ∈ checkSoftDelete ⟨[m]⟩,
      f.rule = RuleCode.softdeleteAtWithoutBy ∨
        f.rule = RuleCode.softdeleteByWithoutAt →
      f.severity = Severity.info) := by
  have hsingle : checkSoftDelete ⟨[m]⟩ = checkSoftDeleteModel m := by
    simp [checkSoftDelete]
  rw [hsingle]
  unfold checkSoftDeleteModel
  rcases hAt : m.fields.find? (fun f =>
      (f.name == "deleted_at" || f.name == "deletedAt") && f.type == "DateTime")
    with _ | sdf <;>
  rcases hBy : m.fields.find? (fun f =>
      f.name == "deleted_by" || f.name == "deletedBy") with _ | dbf <;>
  rw [hAt, hBy]
  · refine ⟨by simp, by simp, ?_⟩
    intro f hf
    simp at hf
  · refine ⟨by simp [List.countP_cons], by simp [List.countP_cons], ?_⟩
    intro f hf hr
    simp at hf
    rw [hf]
  · refine ⟨?_, ?_, ?_⟩
    · simp [List.countP_append, List.countP_cons,
        countP_pairing_softDeleteUniqueFindings m.name sdf.name m.uniqueConstraints
          RuleCode.softdeleteAtWithoutBy (by decide)]
    · simp [List.countP_append, List.countP_cons,
        countP_pairing_softDeleteUniqueFindings m.name sdf.name m.uniqueConstraints
          RuleCode.softdeleteByWithoutAt (by decide)]
    · intro f hf hr
      rcases List.mem_append.mp hf with hl | hp
      · rcases hr with h | h <;>
          rw [rule_of_mem_softDeleteUniqueFindings hl] at h <;> cases h
      · rcases List.mem_singleton.mp hp with rfl
        rfl
  · refine ⟨?_, ?_, ?_⟩
    · simp [List.countP_append,
        countP_pairing_softDeleteUniqueFindings m.name sdf.name m.uniqueConstraints
          RuleCode.softdeleteAtWithoutBy (by decide)]
    · simp [List.countP_append,
        countP_pairing_softDeleteUniqueFindings m.name sdf.name m.uniqueConstraints
          RuleCode.softdeleteByWithoutAt (by decide)]
    · intro f hf hr
      rcases List.mem_append.mp hf with hl | hp
      · rcases hr with h | h <;>
          rw [rule_of_mem_softDeleteUniqueFindings hl] at h <;> cases h
      · exact absurd hp (List.not_mem_nil f)

/-- C9: for every relation field that yields a foreign key during extraction,
the extracted `onDelete`/`onUpdate` equal the declared actions when recognized
and default to Cascade when the declaration is absent or unrecognized. -/
theorem referentialAction_default :
    (∀ v : Option String,
      toReferentialAction v ReferentialAction.cascade = claimReferentialAction v) ∧
    (∀ (model : AuditModel) (f : AuditField) (fk : ForeignKeyConstraint),
      f ∈ model.fields → fkFromAuditField f = some fk →
      fk ∈ extractForeignKeys model ∧
      fk.onDelete = claimReferentialAction f.relationOnDelete ∧
      fk.onUpdate = claimReferentialAction f.relationOnUpdate) := by
  have hact : ∀ v : Option String,
      toReferentialAction v ReferentialAction.cascade = claimReferentialAction v := by
    intro v
    cases v with
    | none => rfl
    | some s =>
      simp only [toReferentialAction, referentialActionOfString, claimReferentialAction]
      split_ifs <;> rfl
  refine ⟨hact, fun model f fk hf hfk => ?_⟩
  have hmem : fk ∈ extractForeignKeys model := by
    unfold extractForeignKeys sortBy
    exact (List.perm_insertionSort _ _).mem_iff.mpr
      (List.mem_filterMap.mpr ⟨f, hf, hfk⟩)
  refine ⟨hmem, ?_⟩
  unfold fkFromAuditField at hfk
  rcases hFrom : f.relationFromFields with _ | lf <;> rw [hFrom] at hfk
  · cases hfk
  · rcases hTo : f.relationToFields with _ | rf <;> rw [hTo] at hfk
    · cases hfk
    · simp only at hfk
      split at hfk
      · have heq := Option.some.inj hfk
        subst heq
        exact ⟨hact f.relationOnDelete, hact f.relationOnUpdate⟩
      · cases hfk

/-- C9 witness: the theorem applied to a concrete relation field whose
`onDelete` is recognized (`SetNull`) and whose `onUpdate` is unrecognized
(falls back to Cascade). -/
theorem referentialAction_default_witness :
    exRelField ∈ exRelModel.fields ∧
    fkFromAuditField exRelField = some exRelFk ∧
    (exRelFk ∈ extractForeignKeys exRelModel ∧
     exRelFk.onDelete = claimReferentialAction exRelField.relationOnDelete ∧
     exRelFk.onUpdate = claimReferentialAction exRelField.relationOnUpdate) :=
  ⟨by decide, by decide,
    referentialAction_default.2 exRelModel exRelField exRelFk (by decide) (by decide)⟩

/-- The fuelled de-duplication keeps only members of the original list. -/
theorem mem_of_mem_dedupGo :
    ∀ (n : Nat) (l : List String) {x : String}, x ∈ dedupGo n l → x ∈ l := by
  intro n
  induction n with
  | zero =>
    intro l x h
    cases l with
    | nil => exact h
    | cons a t => exact absurd h (List.not_mem_nil x)
  | succ n ih =>
    intro l x h
    cases l with
    | nil => exact h
    | cons a t =>
      rcases List.mem_cons.mp h with rfl | hmem
      · exact List.mem_cons_self _ _
      · exact List.mem_cons_of_mem a (List.mem_filter.mp (ih _ hmem)).1

/-- The de-duplicated list keeps only members of the original list. -/
theorem mem_of_mem_dedupKeepFirst {x : String} {l : List String}
    (h : x ∈ dedupKeepFirst l) : x ∈ l :=
  mem_of_mem_dedupGo l.length l h

/-- With enough fuel, the fuelled de-duplication has no duplicates. -/
theorem dedupGo_nodup :
    ∀ (n : Nat) (l : List String), l.length ≤ n → (dedupGo n l).Nodup := by
  intro n
  induction n with
  | zero =>
    intro l _
    cases l with
    | nil => exact List.nodup_nil
    | cons a t => exact List.nodup_nil
  | succ n ih =>
    intro l hl
    cases l with
    | nil => exact List.nodup_nil
    | cons a t =>
      refine List.nodup_cons.mpr ⟨fun hmem => ?_, ?_⟩
      · have := (List.mem_filter.mp (mem_of_mem_dedupGo _ _ hmem)).2
        simp at this
      · refine ih _ (Nat.le_trans (List.length_filter_le _ t) ?_)
        exact Nat.le_of_succ_le_succ hl

/-- First-occurrence de-duplication produces a list with no duplicates. -/
theorem dedupKeepFirst_nodup (l : List String) : (dedupKeepFirst l).Nodup :=
  dedupGo_nodup l.length l (Nat.le_refl _)

/-- C6 counterexample: the de-duplication of unknown-field findings is per FD
entry, not per model — two entries of model `User` referencing the same
unknown field `ghost` yield two `INVARIANT_UNKNOWN_FIELD` findings, not one. -/
theorem validate_unknownField_counterexample :
    ((validateInvariantsAgainstContract cex6Invariants exUserContract).filter
        (fun f => f.rule == RuleCode.invariantUnknownField &&
          f.field == some "ghost")).length = 2 ∧
    ¬ ((validateInvariantsAgainstContract cex6Invariants exUserContract).filter
        (fun f => f.rule == RuleCode.invariantUnknownField &&
          f.field == some "ghost")).length = 1 := by
  constructor
  · decide
  · decide

/-- C6 amended: for a model present in the contract, each FD entry contributes
exactly one `INVARIANT_UNKNOWN_FIELD` finding per distinct unknown field of
that entry's de-duplicated determinant-and-dependent union (a field referenced
by several entries of the model is reported once per entry). -/
theorem validate_unknownField_per_entry (c : ConstraintContract)
    (mName : String) (fd : InvariantFd) (model : ModelContract)
    (h : mapGetLast c.models mName = some model) :
    ((validateInvariantsAgainstContract
        [(mName, { functionalDependencies := some [fd] })] c).filter
      (fun f => f.rule == RuleCode.invariantUnknownField)).map (fun f => f.field) =
      ((dedupKeepFirst (fd.determinant ++ fd.dependent)).filter (fun x =>
        !(model.fields.map (fun fl => fl.name)).contains x)).map some ∧
    (((validateInvariantsAgainstContract
        [(mName, { functionalDependencies := some [fd] })] c).filter
      (fun f => f.rule == RuleCode.invariantUnknownField)).map (fun f => f.field)).Nodup := by
  have hmain : ((validateInvariantsAgainstContract
        [(mName, { functionalDependencies := some [fd] })] c).filter
      (fun f => f.rule == RuleCode.invariantUnknownField)).map (fun f => f.field) =
      ((dedupKeepFirst (fd.determinant ++ fd.dependent)).filter (fun x =>
        !(model.fields.map (fun fl => fl.name)).contains x)).map some := by
    unfold validateInvariantsAgainstContract
    rw [List.flatMap_cons]
    simp only [List.flatMap_nil, List.append_nil]
    rw [h]
    simp only [List.flatMap_cons, List.flatMap_nil, List.append_nil]
    rw [List.filter_append]
    have h1 : ∀ (l : List String),
        (l.map (unknownFieldFinding mName)).filter
          (fun f => f.rule == RuleCode.invariantUnknownField) =
        l.map (unknownFieldFinding mName) := by
      intro l
      refine List.filter_eq_self.mpr (fun f hf => ?_)
      rcases List.mem_map.mp hf with ⟨x, _, rfl⟩
      rfl
    rw [h1]
    have h3 : (if (dedupKeepFirst (fd.determinant ++ fd.dependent)).filter (fun f =>
          !(model.fields.map (fun fl => fl.name)).contains f) |>.any (fun f =>
            fd.determinant.contains f) then ([] : List Finding)
        else
          if ((match model.primaryKey with
               | some pk => [pk.fields]
               | none => []) ++
              model.uniqueConstraints.map (fun uq => uq.fields)).any (fun cfs =>
                cfs.all (fun cf => fd.determinant.contains cf)) then []
          else [notEnforcedFinding mName fd]).filter
            (fun f => f.rule == RuleCode.invariantUnknownField) = [] := by
      split
      · rfl
      · split
        · rfl
        · rfl
    rw [h3, List.append_nil, List.map_map]
    rfl
  refine ⟨hmain, ?_⟩
  rw [hmain]
  exact ((List.Nodup.filter _ (dedupKeepFirst_nodup _)).map
    (fun _ _ => Option.some.inj))

/-- C6 amended witness: the per-entry statement applied to a concrete contract
and FD entry (the duplicated `ghost` reference is reported once). -/
theorem validate_unknownField_per_entry_witness :
    (mapGetLast exUserContract.models "User" = some exUserModel) ∧
    (((validateInvariantsAgainstContract
        [("User", { functionalDependencies := some [exGhostFd] })] exUserContract).filter
      (fun f => f.rule == RuleCode.invariantUnknownField)).map (fun f => f.field) =
      ((dedupKeepFirst (exGhostFd.determinant ++ exGhostFd.dependent)).filter (fun x =>
        !(exUserModel.fields.map (fun fl => fl.name)).contains x)).map some ∧
    (((validateInvariantsAgainstContract
        [("User", { functionalDependencies := some [exGhostFd] })] exUserContract).filter
      (fun f => f.rule == RuleCode.invariantUnknownField)).map (fun f => f.field)).Nodup) :=
  ⟨by decide,
    validate_unknownField_per_entry exUserContract "User" exGhostFd exUserModel (by decide)⟩

/-- The character-code key determines the string. -/
theorem strKey_injective {a b : String} (h : strKey a = strKey b) : a = b := by
  have hinj : Function.Injective Char.toNat := by
    intro c d hcd
    rw [← Char.ofNat_toNat c, ← Char.ofNat_toNat d, hcd]
  have hdata : a.data = b.data := List.map_injective_iff.mpr hinj h
  cases a with
  | mk da =>
    cases b with
    | mk db =>
      simp only at hdata
      rw [hdata]

/-- The fuelled de-duplication does not depend on the fuel once it dominates
the list length. -/
theorem dedupGo_fuel_irrel :
    ∀ (n : Nat) (l : List String), l.length ≤ n → dedupGo n l = dedupKeepFirst l := by
  intro n
  induction n using Nat.strong_induction_on with
  | _ n ih =>
    intro l hl
    cases l with
    | nil =>
      cases n <;> rfl
    | cons a t =>
      cases n with
      | zero => exact absurd hl (by simp)
      | succ m =>
        have hflt : (t.filter (fun x => x != a)).length ≤ t.length :=
          List.length_filter_le _ t
        have htm : t.length ≤ m := Nat.le_of_succ_le_succ hl
        show a :: dedupGo m (t.filter (fun x => x != a)) = dedupKeepFirst (a :: t)
        have h1 : dedupGo m (t.filter (fun x => x != a)) =
            dedupKeepFirst (t.filter (fun x => x != a)) := by
          rcases Nat.eq_or_lt_of_le htm with heq | hlt
          · exact ih m (Nat.lt_succ_self m) _ (Nat.le_trans hflt htm)
          · exact ih m (Nat.lt_succ_self m) _ (Nat.le_trans hflt htm)
        have h2 : dedupGo t.length (t.filter (fun x => x != a)) =
            dedupKeepFirst (t.filter (fun x => x != a)) :=
          ih t.length (Nat.lt_succ_of_le htm) _ hflt
        show _ = dedupGo (a :: t).length (a :: t)
        simp only [List.length_cons, dedupGo]
        rw [h1, h2]

/-- Unfolding equation for first-occurrence de-duplication. -/
theorem dedupKeepFirst_cons (a : String) (t : List String) :
    dedupKeepFirst (a :: t) = a :: dedupKeepFirst (t.filter (fun x => x != a)) := by
  show dedupGo (a :: t).length (a :: t) = _
  simp only [List.length_cons, dedupGo]
  rw [dedupGo_fuel_irrel t.length _ (List.length_filter_le _ t)]

/-- The fuelled de-duplication is a sublist of its input. -/
theorem dedupGo_sublist : ∀ (n : Nat) (l : List String), (dedupGo n l).Sublist l := by
  intro n
  induction n with
  | zero =>
    intro l
    cases l with
    | nil => exact List.Sublist.refl []
    | cons a t => exact List.nil_sublist _
  | succ n ih =>
    intro l
    cases l with
    | nil => exact List.Sublist.refl []
    | cons a t =>
      exact List.Sublist.cons₂ a
        (List.Sublist.trans (ih _) (List.filter_sublist t))

/-- First-occurrence de-duplication is a sublist of its input. -/
theorem dedupKeepFirst_sublist (l : List String) : (dedupKeepFirst l).Sublist l :=
  dedupGo_sublist l.length l

/-- Searching with `find?` on a key-tagged map hits the searched key's entry. -/
theorem find?_pair_map {β : Type} (g : String → β) :
    ∀ (keys : List String) (k : String), k ∈ keys →
      (keys.map (fun x => (x, g x))).find? (fun p => p.1 == k) = some (k, g k) := by
  intro keys
  induction keys with
  | nil =>
    intro k hk
    exact absurd hk (List.not_mem_nil k)
  | cons a t ih =>
    intro k hk
    by_cases ha : a = k
    · subst ha
      simp [List.find?_cons]
    · rw [List.map_cons, List.find?_cons]
      have : ((a, g a).1 == k) = false := by
        simp [ha]
      rw [this]
      rcases List.mem_cons.mp hk with heq | hmem
      · exact absurd heq.symm ha
      · exact ih k hmem

/-- A `filterMap` that succeeds on every member is a `map`. -/
theorem filterMapEqMap {α β : Type} (f : α → Option β) (g : α → β) :
    ∀ (l : List α), (∀ a ∈ l, f a = some (g a)) → l.filterMap f = l.map g := by
  intro l
  induction l with
  | nil => intro _; rfl
  | cons a t ih =>
    intro h
    rw [List.filterMap_cons, h a (List.mem_cons_self a t), List.map_cons,
      ih (fun b hb => h b (List.mem_cons_of_mem a hb))]

/-- Evaluating `groupPairs` over key-tagged elements: keys in first-occurrence order, the
group of each key being the elements carrying it, in order. -/
theorem groupPairs_map_key {α : Type} (key : α → String) (l : List α) :
    groupPairs (l.map (fun a => (key a, a))) =
      (dedupKeepFirst (l.map key)).map (fun k =>
        (k, l.filter (fun a => key a == k))) := by
  unfold groupPairs
  have h1 : (l.map (fun a => (key a, a))).map Prod.fst = l.map key := by
    rw [List.map_map]
    rfl
  rw [h1]
  refine List.map_congr_left (fun k _ => ?_)
  have h2 : ((l.map (fun a => (key a, a))).filter (fun p => p.1 == k)).map Prod.snd =
      l.filter (fun a => key a == k) := by
    rw [List.filter_map, List.map_map]
    have h3 : (Prod.snd ∘ fun a => (key a, a)) = id := rfl
    rw [h3, List.map_id]
    rfl
  rw [h2]

/-- In a weakly name-sorted FD list headed by model `m0`, the `m0`-block comes
first: filtering for `m0` and against `m0` splits the list in order. -/
theorem filter_split_of_sorted :
    ∀ (t : List FunctionalDependency) (m0 : String),
      (∀ b ∈ t.map (fun fd => fd.model), strKey m0 ≤ strKey b) →
      ((t.map (fun fd => fd.model)).Pairwise (fun a b => strKey a ≤ strKey b)) →
      t.filter (fun x => x.model == m0) ++ t.filter (fun x => x.model != m0) = t := by
  intro t
  induction t with
  | nil => intro m0 _ _; rfl
  | cons x t' ih =>
    intro m0 hle hp
    have hle' : ∀ b ∈ t'.map (fun fd => fd.model), strKey m0 ≤ strKey b :=
      fun b hb => hle b (List.mem_cons_of_mem _ hb)
    have hp' := (List.pairwise_cons.mp hp).2
    have hx1 := (List.pairwise_cons.mp hp).1
    by_cases hx : x.model = m0
    · have hbeq : (x.model == m0) = true := by simp [hx]
      have hbne : (x.model != m0) = false := by simp [hx]
      simp only [List.filter_cons, hbeq, hbne, if_true, if_false, cond_true,
        cond_false, Bool.false_eq_true, List.cons_append]
      rw [ih m0 hle' hp']
    · have hlt : strKey m0 < strKey x.model := by
        refine lt_of_le_of_ne (hle _ (by simp)) (fun hc => hx ?_)
        exact (strKey_injective hc).symm
      have hall : ∀ y ∈ x :: t', (y.model == m0) = false := by
        intro y hy
        rcases List.mem_cons.mp hy with rfl | hmem
        · simp [hx]
        · have hxy : strKey x.model ≤ strKey y.model :=
            hx1 _ (List.mem_map.mpr ⟨y, hmem, rfl⟩)
          have : strKey m0 < strKey y.model := lt_of_lt_of_le hlt hxy
          simp only [beq_eq_false_iff_ne, ne_eq]
          intro hc
          rw [hc] at this
          exact lt_irrefl _ this
      have h1 : (x :: t').filter (fun x => x.model == m0) = [] :=
        List.filter_eq_nil_iff.mpr (fun a ha => by simp [hall a ha])
      have h2 : (x :: t').filter (fun x => x.model != m0) = x :: t' :=
        List.filter_eq_self.mpr (fun a ha => by
          simp only [bne_iff_ne, ne_eq]
          have := hall a ha
          simp only [beq_eq_false_iff_ne, ne_eq] at this
          exact this)
      rw [h1, h2]
      rfl

/-- Flattening the first-occurrence groups of a weakly name-sorted FD list in
key order reproduces the list. -/
theorem flatten_groups_aux :
    ∀ (N : Nat) (l : List FunctionalDependency), l.length ≤ N →
      ((l.map (fun fd => fd.model)).Pairwise (fun a b => strKey a ≤ strKey b)) →
      (dedupKeepFirst (l.map (fun fd => fd.model))).flatMap
        (fun k => l.filter (fun fd => fd.model == k)) = l := by
  intro N
  induction N with
  | zero =>
    intro l hl _
    cases l with
    | nil => rfl
    | cons fd t => exact absurd hl (by simp)
  | succ N ih =>
    intro l hl hp
    cases l with
    | nil => rfl
    | cons fd t =>
      rw [List.map_cons, dedupKeepFirst_cons, List.flatMap_cons]
      have hp1 := (List.pairwise_cons.mp hp).1
      have hp2 := (List.pairwise_cons.mp hp).2
      have hfirst : (fd :: t).filter (fun x => x.model == fd.model) =
          fd :: t.filter (fun x => x.model == fd.model) := by
        simp [List.filter_cons]
      have hmapfilter : (t.map (fun fd2 => fd2.model)).filter (fun x => x != fd.model) =
          (t.filter (fun x => x.model != fd.model)).map (fun fd2 => fd2.model) := by
        rw [List.filter_map]
        rfl
      have hkne : ∀ k ∈ dedupKeepFirst
          ((t.map (fun fd2 => fd2.model)).filter (fun x => x != fd.model)),
          k ≠ fd.model ∧ k ∈ t.map (fun fd2 => fd2.model) := by
        intro k hk
        have hk2 := mem_of_mem_dedupKeepFirst hk
        have hk3 := List.mem_filter.mp hk2
        exact ⟨by simpa using hk3.2, hk3.1⟩
      have hcongr : (dedupKeepFirst
            ((t.map (fun fd2 => fd2.model)).filter (fun x => x != fd.model))).flatMap
          (fun k => (fd :: t).filter (fun fd2 => fd2.model == k)) =
          (dedupKeepFirst
            ((t.map (fun fd2 => fd2.model)).filter (fun x => x != fd.model))).flatMap
          (fun k => (t.filter (fun x => x.model != fd.model)).filter
            (fun fd2 => fd2.model == k)) := by
        refine listFlatMapCongr (fun k hk => ?_)
        obtain ⟨hkm, _⟩ := hkne k hk
        have hhead : (fd.model == k) = false := by
          simp only [beq_eq_false_iff_ne, ne_eq]
          exact fun hc => hkm hc.symm
        rw [List.filter_cons]
        simp only [hhead, Bool.false_eq_true, if_false, cond_false]
        rw [List.filter_filter]
        refine (List.filter_congr (fun x _ => ?_)).symm
        cases hxk : x.model == k with
        | false => simp
        | true =>
          have hxkeq : x.model = k := by simpa using hxk
          have : (x.model != fd.model) = true := by
            simp [hxkeq, hkm]
          simp [this]
      rw [hfirst, hcongr, hmapfilter]
      have hlen : (t.filter (fun x => x.model != fd.model)).length ≤ N :=
        Nat.le_trans (List.length_filter_le _ t) (Nat.le_of_succ_le_succ hl)
      have hpf : (((t.filter (fun x => x.model != fd.model)).map
          (fun fd2 => fd2.model)).Pairwise (fun a b => strKey a ≤ strKey b)) := by
        refine List.Pairwise.sublist ?_ hp2
        exact List.Sublist.map _ (List.filter_sublist t)
      rw [ih _ hlen hpf]
      have := filter_split_of_sorted t fd.model hp1 hp2
      rw [List.cons_append, this]

/-- Membership in a guarded singleton-or-empty list. -/
theorem mem_of_mem_ite_nil {α : Type} {a : α} {c : Prop} [Decidable c]
    {l : List α} (h : a ∈ (if c then l else [])) : a ∈ l := by
  split at h
  · exact h
  · exact absurd h (List.not_mem_nil a)

/-- A guarded `some` that returned `some`. -/
theorem eq_of_ite_none_eq_some {α : Type} {c : Prop} [Decidable c] {x y : α}
    (h : (if c then some x else none) = some y) : x = y := by
  split at h
  · exact Option.some.inj h
  · cases h

/-- Every FD inferred for a model carries that model's name. -/
theorem modelInferredFds_model (m : ModelContract) :
    ∀ fd ∈ modelInferredFds m, fd.model = m.name := by
  intro fd hfd
  unfold modelInferredFds at hfd
  rcases List.mem_append.mp hfd with h12 | hfk
  · rcases List.mem_append.mp h12 with hpk | huq
    · split at hpk
      · rcases List.mem_singleton.mp (mem_of_mem_ite_nil hpk) with rfl
        rfl
      · exact absurd hpk (List.not_mem_nil fd)
    · obtain ⟨uq, _, heq⟩ := List.mem_filterMap.mp huq
      have := eq_of_ite_none_eq_some heq
      rw [← this]
  · obtain ⟨fk, _, heq⟩ := List.mem_map.mp hfk
    rw [← heq]

/-- If the model list is name-sorted, the inferred FD list is name-sorted
(each model contributes a block of FDs carrying its name). -/
theorem pairwise_inferred (ms : List ModelContract)
    (h : (ms.map (fun m => m.name)).Pairwise (fun a b => strKey a ≤ strKey b)) :
    ((ms.flatMap modelInferredFds).map (fun fd => fd.model)).Pairwise
      (fun a b => strKey a ≤ strKey b) := by
  induction ms with
  | nil => simp
  | cons m t ih =>
    rw [List.flatMap_cons, List.map_append]
    have h1 := (List.pairwise_cons.mp h).1
    have h2 := (List.pairwise_cons.mp h).2
    refine List.pairwise_append.mpr ⟨?_, ih h2, ?_⟩
    · refine List.pairwise_of_forall_mem_list (fun a ha b hb => ?_)
      obtain ⟨fda, hfda, rfl⟩ := List.mem_map.mp ha
      obtain ⟨fdb, hfdb, rfl⟩ := List.mem_map.mp hb
      rw [modelInferredFds_model m fda hfda, modelInferredFds_model m fdb hfdb]
    · intro a ha b hb
      obtain ⟨fda, hfda, rfl⟩ := List.mem_map.mp ha
      obtain ⟨fdb, hfdb, rfl⟩ := List.mem_map.mp hb
      obtain ⟨m', hm', hfdb'⟩ := List.mem_flatMap.mp hfdb
      rw [modelInferredFds_model m fda hfda, modelInferredFds_model m' fdb hfdb']
      exact h1 _ (List.mem_map.mpr ⟨m', hm', rfl⟩)

/-- Generation followed by re-conversion, on any FD list whose PK/unique
sublist is weakly name-sorted: the result is exactly that sublist, in order,
with each FD normalized by `normalizeRoundTripFd`. -/
theorem roundtrip_general (contract : ConstraintContract)
    (fds : List FunctionalDependency)
    (h : ((fds.filter (fun fd => fd.source == FdSource.pk ||
        fd.source == FdSource.unique)).map (fun fd => fd.model)).Pairwise
      (fun a b => strKey a ≤ strKey b)) :
    invariantsToFds (generateInvariantsFile contract fds) =
      (fds.filter (fun fd => fd.source == FdSource.pk ||
        fd.source == FdSource.unique)).map normalizeRoundTripFd := by
  set L := fds.filter (fun fd => fd.source == FdSource.pk ||
    fd.source == FdSource.unique) with hL
  have hgen : generateInvariantsFile contract fds =
      (sortStrings ((groupPairs (L.map (fun fd => (fd.model, fd)))).map
        Prod.fst)).filterMap (fun modelName =>
        match ((groupPairs (L.map (fun fd => (fd.model, fd)))).find?
            (fun p => p.1 == modelName)).map Prod.snd with
        | none => none
        | some modelFds =>
          let entries := modelFds.map (fun fd =>
            ({ determinant := sortStrings fd.determinant
               dependent := sortStrings fd.dependent
               note := some (generateNote fd)
               rule := some (generateRule fd modelName) } : InvariantFd))
          if entries.length > 0 then
            some (modelName, ({ functionalDependencies := some entries } : ModelInvariants))
          else none) := rfl
  rw [hgen, groupPairs_map_key (fun fd => fd.model) L]
  set keys := dedupKeepFirst (L.map (fun fd => fd.model)) with hkeys
  have hfst : (keys.map (fun k => (k, L.filter (fun fd => fd.model == k)))).map
      Prod.fst = keys := by
    rw [List.map_map]
    show keys.map id = keys
    exact List.map_id keys
  rw [hfst]
  have hsorted : sortStrings keys = keys :=
    List.Sorted.insertionSort_eq
      (List.Pairwise.sublist (dedupKeepFirst_sublist _) h)
  rw [hsorted]
  have hfm : keys.filterMap (fun modelName =>
      match ((keys.map (fun k => (k, L.filter (fun fd => fd.model == k)))).find?
          (fun p => p.1 == modelName)).map Prod.snd with
      | none => none
      | some modelFds =>
        let entries := modelFds.map (fun fd =>
          ({ determinant := sortStrings fd.determinant
             dependent := sortStrings fd.dependent
             note := some (generateNote fd)
             rule := some (generateRule fd modelName) } : InvariantFd))
        if entries.length > 0 then
          some (modelName, ({ functionalDependencies := some entries } : ModelInvariants))
        else none) =
      keys.map (fun k =>
        (k, ModelInvariants.mk (some ((L.filter (fun fd => fd.model == k)).map
          (fun fd => InvariantFd.mk (sortStrings fd.determinant)
            (sortStrings fd.dependent) (some (generateNote fd))
            (some (generateRule fd k))))))) := by
    refine filterMapEqMap _ _ keys (fun k hk => ?_)
    rw [find?_pair_map (fun k => L.filter (fun fd => fd.model == k)) keys k hk]
    simp only [Option.map_some']
    have hk2 := mem_of_mem_dedupKeepFirst hk
    obtain ⟨fd0, hfd0, hfd0m⟩ := List.mem_map.mp hk2
    have hne : fd0 ∈ L.filter (fun fd => fd.model == k) :=
      List.mem_filter.mpr ⟨hfd0, by simp [hfd0m]⟩
    have hpos : ((L.filter (fun fd => fd.model == k)).map
        (fun fd => InvariantFd.mk (sortStrings fd.determinant)
          (sortStrings fd.dependent) (some (generateNote fd))
          (some (generateRule fd k)))).length > 0 := by
      rw [List.length_map]
      exact List.length_pos.mpr (List.ne_nil_of_mem hne)
    show (if _ > 0 then _ else none) = _
    rw [if_pos hpos]
  rw [hfm]
  unfold invariantsToFds
  rw [List.flatMap_map]
  have hbody : ∀ k ∈ keys,
      (match (ModelInvariants.mk (some ((L.filter (fun fd => fd.model == k)).map
          (fun fd => InvariantFd.mk (sortStrings fd.determinant)
            (sortStrings fd.dependent) (some (generateNote fd))
            (some (generateRule fd k)))))).functionalDependencies with
       | some fdl => fdl.map (fun fd =>
           ({ determinant := fd.determinant, dependent := fd.dependent,
              model := k, source := FdSource.invariant } : FunctionalDependency))
       | none => []) =
      (L.filter (fun fd => fd.model == k)).map normalizeRoundTripFd := by
    intro k hk
    show ((L.filter (fun fd => fd.model == k)).map
        (fun fd => InvariantFd.mk (sortStrings fd.determinant)
          (sortStrings fd.dependent) (some (generateNote fd))
          (some (generateRule fd k)))).map (fun fd =>
            ({ determinant := fd.determinant, dependent := fd.dependent,
               model := k, source := FdSource.invariant } : FunctionalDependency)) = _
    rw [List.map_map]
    refine List.map_congr_left (fun fd hfd => ?_)
    have hmk : fd.model = k := by
      have := (List.mem_filter.mp hfd).2
      simpa using this
    simp only [Function.comp_apply, normalizeRoundTripFd, hmk]
  refine Eq.trans (listFlatMapCongr hbody) ?_
  rw [← List.map_flatMap]
  rw [flatten_groups_aux L.length L (Nat.le_refl _) h]

/-- C3 amended: for every contract whose models are sorted by name (the
extraction invariant), generating an invariants file from the contract's
inferred FDs and converting it back yields exactly the PK- and unique-sourced
FDs, in order, with determinant and dependent field lists sorted
alphabetically and the source retagged `invariant`; pure-join-table models
(whose keys leave no dependents) contribute nothing because inference emits no
FD for them. -/
theorem generate_roundtrip (c : ConstraintContract)
    (h : (c.models.map (fun m => m.name)).Pairwise (fun a b => strKey a ≤ strKey b)) :
    invariantsToFds (generateInvariantsFile c (inferFunctionalDependencies c)) =
      ((inferFunctionalDependencies c).filter (fun fd =>
        fd.source == FdSource.pk || fd.source == FdSource.unique)).map
        normalizeRoundTripFd := by
  refine roundtrip_general c _ ?_
  refine List.Pairwise.sublist ?_ (pairwise_inferred c.models h)
  exact List.Sublist.map _ (List.filter_sublist _)

/-- C3 counterexample: the round trip does not reproduce the PK/unique FDs
verbatim — the re-converted FDs carry source `invariant`, not `pk`/`unique`,
so the two lists differ at this concrete contract. -/
theorem generate_roundtrip_counterexample :
    invariantsToFds (generateInvariantsFile cex3Contract
        (inferFunctionalDependencies cex3Contract)) ≠
      (inferFunctionalDependencies cex3Contract).filter (fun fd =>
        fd.source == FdSource.pk || fd.source == FdSource.unique) := by
  decide

/-- C3 witness: the amended round trip evaluated at the concrete sorted
contract `cex3Contract`. -/
theorem generate_roundtrip_witness :
    ((cex3Contract.models.map (fun m => m.name)).Pairwise
      (fun a b => strKey a ≤ strKey b)) ∧
    invariantsToFds (generateInvariantsFile cex3Contract
        (inferFunctionalDependencies cex3Contract)) =
      ((inferFunctionalDependencies cex3Contract).filter (fun fd =>
        fd.source == FdSource.pk || fd.source == FdSource.unique)).map
        normalizeRoundTripFd :=
  ⟨by simp [cex3Contract], generate_roundtrip cex3Contract (by simp [cex3Contract])⟩

/-- Equal character data gives equal strings. -/
theorem stringDataInj {s t : String} (h : s.data = t.data) : s = t := by
  cases s
  cases t
  exact congrArg String.mk h

/-- A successful `findIdx?` splits the list at the first hit. -/
theorem findIdxSplit {p : Char → Bool} :
    ∀ (cs : List Char) (i n : Nat), cs.findIdx? p i = some n →
      ∃ l₁ c l₂, cs = l₁ ++ c :: l₂ ∧ i + l₁.length = n ∧ p c = true ∧
        ∀ x ∈ l₁, p x = false := by
  intro cs
  induction cs with
  | nil => intro i n h; cases h
  | cons a t ih =>
    intro i n h
    rw [List.findIdx?_cons] at h
    split at h
    · refine ⟨[], a, t, rfl, ?_, by assumption, fun x hx => absurd hx (List.not_mem_nil x)⟩
      simpa using Option.some.inj h
    · obtain ⟨l₁, c, l₂, heq, hlen, hpc, hall⟩ := ih (i + 1) n h
      refine ⟨a :: l₁, c, l₂, by rw [heq]; rfl, by simp; omega, hpc, ?_⟩
      intro x hx
      rcases List.mem_cons.mp hx with rfl | hmem
      · simpa using ‹¬ p x = true›
      · exact hall x hmem

/-- Running `findIdx?` over a list whose prefix misses finds the first hit. -/
theorem findIdxAppendFirst {p : Char → Bool} :
    ∀ (l₁ : List Char) (c : Char) (l₂ : List Char) (i : Nat),
      (∀ x ∈ l₁, p x = false) → p c = true →
      (l₁ ++ c :: l₂).findIdx? p i = some (i + l₁.length) := by
  intro l₁
  induction l₁ with
  | nil =>
    intro c l₂ i _ hc
    simp [List.findIdx?_cons, hc]
  | cons a t ih =>
    intro c l₂ i hall hc
    rw [List.cons_append, List.findIdx?_cons]
    have ha : p a = false := hall a (List.mem_cons_self a t)
    rw [ha]
    simp only [Bool.false_eq_true, if_false]
    rw [ih c l₂ (i + 1) (fun x hx => hall x (List.mem_cons_of_mem a hx)) hc]
    congr 1
    simp
    omega

/-- Splitting a list at an occurrence of `c` with `c`-free prefix is unique. -/
theorem first_split_unique {c : Char} :
    ∀ {r t l₁ l₂ : List Char}, r ++ c :: t = l₁ ++ c :: l₂ → c ∉ r → c ∉ l₁ →
      r = l₁ ∧ t = l₂ := by
  intro r
  induction r with
  | nil =>
    intro t l₁ l₂ h _ hl
    cases l₁ with
    | nil => exact ⟨rfl, by simpa using h⟩
    | cons b l₁' =>
      simp only [List.nil_append, List.cons_append, List.cons.injEq] at h
      exact absurd (h.1 ▸ List.mem_cons_self b l₁') (h.1 ▸ hl)
  | cons a r' ih =>
    intro t l₁ l₂ h hr hl
    cases l₁ with
    | nil =>
      simp only [List.cons_append, List.nil_append, List.cons.injEq] at h
      exact absurd (h.1 ▸ List.mem_cons_self a r') (fun hc => hr (h.1 ▸ hc))
    | cons b l₁' =>
      simp only [List.cons_append, List.cons.injEq] at h
      obtain ⟨rfl, h2⟩ := h
      have hr' : c ∉ r' := fun hc => hr (List.mem_cons_of_mem a hc)
      have hl' : c ∉ l₁' := fun hc => hl (List.mem_cons_of_mem a hc)
      obtain ⟨hre, hte⟩ := ih h2 hr' hl'
      exact ⟨by rw [hre], hte⟩

/-- Slicing with `jsSlice` from 0 to a valid bound is `take`. -/
theorem jsSlice_take (cs : List Char) (n : Nat) (hn : n ≤ cs.length) :
    jsSlice cs 0 (n : Int) = cs.take n := by
  unfold jsSlice
  simp only
  have h0 : ¬ ((0 : Int) < 0) := by omega
  have h1 : ¬ ((n : Int) < 0) := by omega
  rw [if_neg h0, if_neg h1]
  have h2 : min (0 : Int) (cs.length : Int) = 0 := by omega
  have h3 : min (n : Int) (cs.length : Int) = (n : Int) := by omega
  rw [h2, h3]
  simp

/-- Slicing with `jsSlice` from a non-negative start to the length is `drop`. -/
theorem jsSlice_drop (cs : List Char) (a : Nat) :
    jsSlice cs (a : Int) (cs.length : Int) = cs.drop a := by
  unfold jsSlice
  simp only
  have h0 : ¬ ((a : Int) < 0) := by omega
  have h1 : ¬ ((cs.length : Int) < 0) := by omega
  rw [if_neg h0, if_neg h1]
  have h2 : min ((cs.length : Int)) ((cs.length : Int)) = (cs.length : Int) := by omega
  rw [h2]
  simp only [Int.toNat_natCast, List.take_length]
  by_cases hc : a ≤ cs.length
  · have h3 : min (a : Int) (cs.length : Int) = (a : Int) := by omega
    rw [h3]
    simp
  · have h3 : min (a : Int) (cs.length : Int) = (cs.length : Int) := by omega
    rw [h3]
    simp only [Int.toNat_natCast]
    rw [List.drop_length, List.drop_eq_nil_of_le (by omega)]

/-- The per-entry suppression match coincides with the specification's reading
for entries containing a colon. -/
theorem matchesSuppressEntry_iff (f : Finding) (e : String) (h : ':' ∈ e.data) :
    matchesSuppressEntry f e = true ↔ entrySuppressSpec f e := by
  obtain ⟨n, hn⟩ : ∃ n, e.data.findIdx? (fun x => x == ':') = some n := by
    cases hfi : e.data.findIdx? (fun x => x == ':') with
    | some n => exact ⟨n, rfl⟩
    | none =>
      have := List.findIdx?_eq_none_iff.mp hfi ':' h
      simp at this
  obtain ⟨l₁, c, l₂, hsplitEq, hlen, hpc, hall⟩ := findIdxSplit e.data 0 n hn
  have hc : c = ':' := by simpa using hpc
  subst hc
  have hlen' : l₁.length = n := by omega
  have hcolonfree : ':' ∉ l₁ := by
    intro hmem
    have := hall ':' hmem
    simp at this
  have hlenle : n ≤ e.data.length := by
    rw [hsplitEq, ← hlen']
    simp
  have hidx : jsIndexOfChar e.data ':' = (n : Int) := by
    unfold jsIndexOfChar
    rw [hn]
  have hrule : jsSlice e.data 0 ((n : Int)) = l₁ := by
    rw [jsSlice_take e.data n hlenle, hsplitEq, ← hlen', List.take_left]
  have htarget : jsSlice e.data ((n : Int) + 1) (e.data.length : Int) = l₂ := by
    have hcast : ((n : Int) + 1) = ((n + 1 : Nat) : Int) := by push_cast; ring
    rw [hcast, jsSlice_drop e.data (n + 1), hsplitEq, ← hlen']
    rw [← List.drop_drop, List.drop_left]
    rfl
  unfold matchesSuppressEntry
  simp only [hidx, hrule, htarget]
  by_cases hr : l₁ = (ruleCodeStr f.rule).data
  · have hbne : (l₁ != (ruleCodeStr f.rule).data) = false := by simp [hr]
    rw [hbne, if_neg (by simp)]
    cases hd : l₂.findIdx? (fun x => x == '.') with
    | none =>
      have hidx2 : jsIndexOfChar l₂ '.' = (-1 : Int) := by
        unfold jsIndexOfChar
        rw [hd]
      rw [hidx2]
      rw [show (((-1) : Int) == -1) = true from rfl, if_pos rfl]
      have hnodot : '.' ∉ l₂ := by
        intro hmem
        have := List.findIdx?_eq_none_iff.mp hd '.' hmem
        simp at this
      constructor
      · intro hbeq
        have hmeq : l₂ = f.model.data := by simpa using hbeq
        exact ⟨l₁, l₂, hsplitEq, hcolonfree, hr, Or.inl ⟨hnodot, hmeq⟩⟩
      · rintro ⟨r, t, hre, hrcf, hrr, hdisj⟩
        obtain ⟨hr1, ht1⟩ := first_split_unique (hre.symm.trans hsplitEq) hrcf hcolonfree
        rcases hdisj with ⟨hnd, hmeq⟩ | ⟨mo, fl, htm, hmodf, hmoeq, fls, hfeq, hfleq⟩
        · have : l₂ = f.model.data := ht1 ▸ hmeq
          simp [this]
        · have hdot : '.' ∈ l₂ := by
            rw [← ht1, htm]
            simp
          rw [← ht1] at hnodot
          rw [htm] at hnodot
          exact absurd (by simp : ('.' : Char) ∈ mo ++ '.' :: fl) hnodot
    | some d =>
      have hidx2 : jsIndexOfChar l₂ '.' = (d : Int) := by
        unfold jsIndexOfChar
        rw [hd]
      rw [hidx2]
      rw [show (((d : Nat) : Int) == -1) = false by simp, if_neg (by simp)]
      obtain ⟨m₁, c2, m₂, hsplit2, hlen2, hpc2, hall2⟩ := findIdxSplit l₂ 0 d hd
      have hc2 : c2 = '.' := by simpa using hpc2
      subst hc2
      have hlen2' : m₁.length = d := by omega
      have hdotfree : '.' ∉ m₁ := by
        intro hmem
        have := hall2 '.' hmem
        simp at this
      have hdle : d ≤ l₂.length := by
        rw [hsplit2, ← hlen2']
        simp
      have hmslice : jsSlice l₂ 0 ((d : Int)) = m₁ := by
        rw [jsSlice_take l₂ d hdle, hsplit2, ← hlen2', List.take_left]
      have hfslice : jsSlice l₂ ((d : Int) + 1) (l₂.length : Int) = m₂ := by
        have hcast : ((d : Int) + 1) = ((d + 1 : Nat) : Int) := by push_cast; ring
        rw [hcast, jsSlice_drop l₂ (d + 1), hsplit2, ← hlen2']
        rw [← List.drop_drop, List.drop_left]
        rfl
      rw [hmslice, hfslice]
      constructor
      · intro hb
        have hb2 := (Bool.and_eq_true _ _).mp hb
        have hm : m₁ = f.model.data := by simpa using hb2.1
        rcases hfield : f.field with _ | fls
        · rw [hfield] at hb2
          simp at hb2
        · rw [hfield] at hb2
          have hfl : m₂ = fls.data := by simpa using hb2.2
          exact ⟨l₁, l₂, hsplitEq, hcolonfree, hr,
            Or.inr ⟨m₁, m₂, hsplit2, hdotfree, hm, fls, hfield, hfl⟩⟩
      · rintro ⟨r, t, hre, hrcf, hrr, hdisj⟩
        obtain ⟨hr1, ht1⟩ := first_split_unique (hre.symm.trans hsplitEq) hrcf hcolonfree
        rcases hdisj with ⟨hnd, hmeq⟩ | ⟨mo, fl, htm, hmodf, hmoeq, fls, hfeq, hfleq⟩
        · have : '.' ∈ l₂ := by
            rw [hsplit2]
            simp
          rw [← ht1] at this
          exact absurd this hnd
        · have ht2 : mo ++ '.' :: fl = m₁ ++ '.' :: m₂ := by
            rw [← htm, ht1, hsplit2]
          obtain ⟨hmo, hfl2⟩ := first_split_unique ht2 hmodf hdotfree
          rw [hfeq]
          have e1 : m₁ = f.model.data := hmo ▸ hmoeq
          have e2 : m₂ = fls.data := hfl2 ▸ hfleq
          simp [e1, e2]
  · have hbne : (l₁ != (ruleCodeStr f.rule).data) = true := by simp [hr]
    rw [hbne, if_pos rfl]
    constructor
    · intro hcontra
      exact absurd hcontra (by simp)
    · rintro ⟨r, t, hre, hrcf, hrr, _⟩
      obtain ⟨hr1, _⟩ := first_split_unique (hre.symm.trans hsplitEq) hrcf hcolonfree
      exact absurd (hr1.symm.trans hrr) hr

/-- C7: a finding is dropped from the final audit result exactly when some
suppress entry matches it — the entry's rule part (before the first colon)
equals the finding's rule and its target is either the finding's model alone
or the finding's model and field (split at the target's first dot); in
particular `NF3_VIOLATION:Employee` removes exactly the `NF3_VIOLATION`
findings of model `Employee`. -/
theorem suppression_semantics :
    (∀ (parsed : ParseResult) (pinv : Option ParsedInvariants)
        (schemaPath : String) (noTimestamp : Bool) (now : String),
      (auditCore parsed pinv schemaPath noTimestamp now).findings =
        (preSuppressionFindings parsed pinv).filter (fun fd =>
          !isSuppressed fd (match pinv with
            | none => []
            | some pi => pi.suppress))) ∧
    (∀ (f : Finding) (entries : List String), (∀ e ∈ entries, ':' ∈ e.data) →
      (isSuppressed f entries = true ↔ claimSuppressed f entries)) ∧
    (∀ f : Finding, isSuppressed f ["NF3_VIOLATION:Employee"] = true ↔
      f.rule = RuleCode.nf3Violation ∧ f.model = "Employee") := by
  refine ⟨?_, ?_, ?_⟩
  · intro parsed pinv schemaPath noTimestamp now
    have hfind : (auditCore parsed pinv schemaPath noTimestamp now).findings =
        (if (match pinv with
              | none => ([] : List String)
              | some pi => pi.suppress).length > 0 then
          (preSuppressionFindings parsed pinv).filter (fun fd =>
            !isSuppressed fd (match pinv with
              | none => []
              | some pi => pi.suppress))
        else preSuppressionFindings parsed pinv) := rfl
    rw [hfind]
    cases pinv with
    | none =>
      rw [if_neg (by simp)]
      refine (List.filter_eq_self.mpr (fun fd _ => ?_)).symm
      rfl
    | some pi =>
      by_cases hs : pi.suppress.length > 0
      · rw [if_pos hs]
      · rw [if_neg hs]
        have hnil : pi.suppress = [] := List.length_eq_zero.mp (by omega)
        simp only [hnil]
        refine (List.filter_eq_self.mpr (fun fd _ => ?_)).symm
        rfl
  · intro f entries hcol
    unfold isSuppressed claimSuppressed
    rw [List.any_eq_true]
    constructor
    · rintro ⟨e, he, hm⟩
      exact ⟨e, he, (matchesSuppressEntry_iff f e (hcol e he)).mp hm⟩
    · rintro ⟨e, he, hs⟩
      exact ⟨e, he, (matchesSuppressEntry_iff f e (hcol e he)).mpr hs⟩
  · intro f
    have h1 : isSuppressed f ["NF3_VIOLATION:Employee"] =
        matchesSuppressEntry f "NF3_VIOLATION:Employee" := by
      simp [isSuppressed]
    have hsplit : matchesSuppressEntry f "NF3_VIOLATION:Employee" =
        (if "NF3_VIOLATION".data != (ruleCodeStr f.rule).data then false
         else ("Employee".data == f.model.data)) := rfl
    rw [h1, hsplit]
    cases hrule : f.rule <;> simp only [ruleCodeStr] <;>
      first
      | (rw [if_pos (by decide)]
         simp)
      | (rw [if_neg (by decide)]
         constructor
         · intro hb
           exact ⟨by trivial, (stringDataInj (by simpa using hb)).symm⟩
         · rintro ⟨_, hmeq⟩
           rw [hmeq]
           simp)

/-- C7 witness: the entry characterization applied to a concrete finding and
the concrete entry list of the specification's example. -/
theorem suppression_semantics_witness :
    (∀ e ∈ ["NF3_VIOLATION:Employee"], ':' ∈ e.data) ∧
    (isSuppressed exNf3Finding ["NF3_VIOLATION:Employee"] = true ↔
      claimSuppressed exNf3Finding ["NF3_VIOLATION:Employee"]) :=
  ⟨by decide, suppression_semantics.2.1 exNf3Finding _ (by decide)⟩
